import Mathlib

/-!
# xv6-lab: physical page allocator (`kernel/kalloc.c`) and buffer cache (`kernel/bio.c`)

A shallow embedding of the two C files and theorems about them.

* Pointers are modelled explicitly. A free page stores the link to the next free
  page in its own first word, so the allocator state is a heap `next : addr → addr`
  together with the per-CPU head pointers `kmem[i].freelist`; `0` is the C `NULL`.
  The buffer cache is the memory of `bcache` field by field, indexed by the address
  of a `struct buf` (a slot of the pool, a bucket sentinel, the unused sentinel).
* The spin locks and `push_off`/`pop_off` are no-ops of a sequential execution and are
  not part of the state. The sleep lock of a buffer is part of the state.
* Loops that the C code runs until a pointer condition holds take a fuel argument;
  running out of fuel is reported as the result `loops`.
* Unsigned arithmetic on `refcnt` wraps at `2 ^ 32`.

The file has two parts: the definitions of both models, then the theorems.
-/

/-! ## The page allocator, `kernel/kalloc.c` -/

namespace Kalloc

/-- Constants that `kalloc.c` uses but that are declared elsewhere (`param.h`,
`riscv.h`, `memlayout.h`, the linker script): they are parameters of the model.
`kend` is the linker symbol `end`, the first address after the kernel. -/
structure Config where
  NCPU : Nat
  PGSIZE : Nat
  kend : Nat
  PHYSTOP : Nat

/-- Allocator state: `freelist i` is `kmem[i].freelist`; `next pa` is the field
`((struct run*)pa)->next`, the first word of the page at address `pa`. -/
structure KState where
  freelist : Nat → Nat
  next : Nat → Nat

/-- Store of one word: `f[x] := v`. -/
def upd (f : Nat → Nat) (x v : Nat) : Nat → Nat :=
  fun y => if y = x then v else f y

/-- Outcome of a kernel call: normal return with a value and the new state, a fatal
`panic` (the state at the moment of the panic is kept), or a loop that never ends. -/
inductive KRes (α : Type) where
  | ret (v : α) (s : KState)
  | panic (s : KState)
  | loops

/-- True when the call ended in `panic`. -/
def KRes.aborted {α : Type} : KRes α → Bool
  | .panic _ => true
  | _ => false

/-- The word that `memset(pa, 1, PGSIZE)` leaves in the first eight bytes of a page. -/
def junkFree : Nat := 0x0101010101010101

/-- The word that `memset(r, 5, PGSIZE)` leaves in the first eight bytes of a page. -/
def junkAlloc : Nat := 0x0505050505050505

/-- The function `kfree(pa)` executed on CPU `id` (the value of `cpuid()`). -/
def kfree (c : Config) (s : KState) (id : Nat) (pa : Nat) : KRes Unit :=
  if pa % c.PGSIZE ≠ 0 ∨ pa < c.kend ∨ pa ≥ c.PHYSTOP then
    .panic s
  else
    -- memset(pa, 1, PGSIZE);
    let s : KState := { s with next := upd s.next pa junkFree }
    -- r->next = kmem[id].freelist;
    let s : KState := { s with next := upd s.next pa (s.freelist id) }
    -- kmem[id].freelist = r;
    let s : KState := { s with freelist := upd s.freelist id pa }
    .ret () s

/-- The slow/fast pointer walk of `stealpage`:
`for (; q->next && q->next->next; p = p->next, q = q->next->next);`
returning the final `p`. -/
def walk (next : Nat → Nat) : Nat → Nat → Nat → Option Nat
  | 0, _, _ => none
  | fuel + 1, p, q =>
    if next q ≠ 0 ∧ next (next q) ≠ 0 then walk next fuel (next p) (next (next q))
    else some p

/-- The donor loop of `stealpage`:
`for (int k = (id+1) % NCPU; k != id; k = (k+1) % NCPU) { ... }`.
The first argument bounds the number of iterations, `fuel` bounds the inner walk. -/
def stealLoop (c : Config) (fuel : Nat) (s : KState) (id : Nat) : Nat → Nat → KRes Unit
  | 0, _ => .loops
  | n + 1, k =>
    if k = id then .ret () s
    else if s.freelist k = 0 then
      -- release; continue;
      stealLoop c fuel s id n ((k + 1) % c.NCPU)
    else
      -- p = q = kmem[k].freelist; walk
      match walk s.next fuel (s.freelist k) (s.freelist k) with
      | none => .loops
      | some p =>
        -- kmem[id].freelist = kmem[k].freelist;
        let s1 : KState := { s with freelist := upd s.freelist id (s.freelist k) }
        -- kmem[k].freelist = p->next;
        let s2 : KState := { s1 with freelist := upd s1.freelist k (s1.next p) }
        -- p->next = 0;
        let s3 : KState := { s2 with next := upd s2.next p 0 }
        -- break;
        .ret () s3

/-- The function `stealpage(id)`. The loop over `k` visits every other CPU at most once when
`id < NCPU`, so `NCPU` iterations are enough for it to end. -/
def stealpage (c : Config) (fuel : Nat) (s : KState) (id : Nat) : KRes Unit :=
  if s.freelist id ≠ 0 then .ret () s
  else stealLoop c fuel s id c.NCPU ((id + 1) % c.NCPU)

/-- The function `kalloc()` executed on CPU `id`; the result `0` is the C `NULL`. -/
def kalloc (c : Config) (fuel : Nat) (s : KState) (id : Nat) : KRes Nat :=
  match stealpage c fuel s id with
  | .loops => .loops
  | .panic s1 => .panic s1
  | .ret () s1 =>
    -- r = kmem[id].freelist;
    let r := s1.freelist id
    if r ≠ 0 then
      -- kmem[id].freelist = r->next;
      let s2 : KState := { s1 with freelist := upd s1.freelist id (s1.next r) }
      -- memset((char*)r, 5, PGSIZE);
      let s3 : KState := { s2 with next := upd s2.next r junkAlloc }
      .ret r s3
    else
      .ret 0 s1

/-- The chain of `run` nodes starting at pointer `p` is exactly the pages `l`,
ended by `NULL`: this is what "the free list is `l`" means for a head pointer `p`. -/
def IsList (next : Nat → Nat) : Nat → List Nat → Prop
  | p, [] => p = 0
  | p, a :: l => p ≠ 0 ∧ p = a ∧ IsList next (next a) l

instance IsList.dec (next : Nat → Nat) : (p : Nat) → (l : List Nat) → Decidable (IsList next p l)
  | p, [] => inferInstanceAs (Decidable (p = 0))
  | p, a :: l =>
    have := IsList.dec next (next a) l
    inferInstanceAs (Decidable (p ≠ 0 ∧ p = a ∧ IsList next (next a) l))

/-! ### Concrete configurations and states used as test inputs -/

/-- One CPU, 4096-byte pages, kernel image ending at `0x80021000`, 128 MB of RAM. -/
def cfg1 : Config := { NCPU := 1, PGSIZE := 4096, kend := 0x80021000, PHYSTOP := 0x88000000 }

/-- Two CPUs, otherwise as `cfg1`. -/
def cfg2 : Config := { NCPU := 2, PGSIZE := 4096, kend := 0x80021000, PHYSTOP := 0x88000000 }

def pgA : Nat := 0x80021000
def pgB : Nat := 0x80022000
def pgC : Nat := 0x80023000

/-- One CPU whose free list is `pgA → pgB → NULL`. -/
def sPair : KState :=
  { freelist := fun _ => pgA
    next := upd (upd (fun _ => 0) pgA pgB) pgB 0 }

/-- Two CPUs: CPU 0 owns `pgA`, CPU 1 owns `pgB`. -/
def sSplit : KState :=
  { freelist := upd (upd (fun _ => 0) 0 pgA) 1 pgB
    next := fun _ => 0 }

/-- Two CPUs: CPU 0 owns `pgA → pgB → pgC`, CPU 1 owns nothing. -/
def sOdd : KState :=
  { freelist := upd (fun _ => 0) 0 pgA
    next := upd (upd (upd (fun _ => 0) pgA pgB) pgB pgC) pgC 0 }

/-- One CPU with an exhausted free list. -/
def sEmpty : KState :=
  { freelist := fun _ => 0
    next := fun _ => 0 }

/-- Range of the C type `uint64` of addresses. -/
def U64 : Nat := 2 ^ 64

/-- Modelled from the spec: the macro `PGROUNDUP` of `riscv.h` (not in the sources),
which aligns the start of the free range to a page boundary, rounding up as its name
says; the addition is a `uint64` addition. -/
def PGROUNDUP (c : Config) (a : Nat) : Nat :=
  ((a + c.PGSIZE - 1) % U64) / c.PGSIZE * c.PGSIZE

/-- The loop of `freerange`, `for (; p + PGSIZE <= (char*)pa_end; p += PGSIZE) kfree(p);`
run on CPU `id`; the first argument bounds the number of iterations. -/
def freerangeLoop (c : Config) (id pa_end : Nat) : Nat → KState → Nat → KRes Unit
  | 0, _, _ => .loops
  | n + 1, s, p =>
    if (p + c.PGSIZE) % U64 ≤ pa_end then
      match kfree c s id p with
      | .ret () s1 => freerangeLoop c id pa_end n s1 ((p + c.PGSIZE) % U64)
      | .panic s1 => .panic s1
      | .loops => .loops
    else .ret () s

/-- The function `freerange(pa_start, pa_end)` run on CPU `id`. -/
def freerange (c : Config) (fuel : Nat) (s : KState) (id pa_start pa_end : Nat) : KRes Unit :=
  -- p = (char*)PGROUNDUP((uint64)pa_start);
  freerangeLoop c id pa_end fuel s (PGROUNDUP c pa_start)

/-- The function `kinit()` run on CPU `id`: `freerange(end, (void*)PHYSTOP)`. -/
def kinit (c : Config) (fuel : Nat) (s : KState) (id : Nat) : KRes Unit :=
  freerange c fuel s id c.kend c.PHYSTOP

/-- Lock and store events of the allocator: `acquire(&kmem[k].lock)`,
`release(&kmem[k].lock)`, and a store to the head pointer `kmem[k].freelist`. -/
inductive KEv where
  | acquire (k : Nat)
  | release (k : Nat)
  | wr (k : Nat)
  deriving DecidableEq, Repr

/-- The events of `kfree(pa)` on CPU `id`, in program order. -/
def kfreeEvents (c : Config) (id pa : Nat) : List KEv :=
  if pa % c.PGSIZE ≠ 0 ∨ pa < c.kend ∨ pa ≥ c.PHYSTOP then
    -- panic("kfree");
    []
  else
    -- acquire(&kmem[id].lock); r->next = ...; kmem[id].freelist = r; release(...);
    [.acquire id, .wr id, .release id]

/-- The events of the donor loop of `stealpage(id)`, in program order. -/
def stealLoopEvents (c : Config) (fuel : Nat) (s : KState) (id : Nat) : Nat → Nat → List KEv
  | 0, _ => []
  | n + 1, k =>
    if k = id then []
    else if s.freelist k = 0 then
      -- acquire(&kmem[k].lock); if (!kmem[k].freelist) { release(&kmem[k].lock); continue; }
      [.acquire k, .release k] ++ stealLoopEvents c fuel s id n ((k + 1) % c.NCPU)
    else
      match walk s.next fuel (s.freelist k) (s.freelist k) with
      | none => [.acquire k]
      | some _ =>
        -- acquire(&kmem[k].lock); ... kmem[id].freelist = kmem[k].freelist;
        -- kmem[k].freelist = p->next; p->next = 0; release(&kmem[k].lock); break;
        [.acquire k, .wr id, .wr k, .release k]

/-- The events of `stealpage(id)`, in program order. -/
def stealpageEvents (c : Config) (fuel : Nat) (s : KState) (id : Nat) : List KEv :=
  -- if (kmem[id].freelist) return;
  if s.freelist id ≠ 0 then []
  else stealLoopEvents c fuel s id c.NCPU ((id + 1) % c.NCPU)

/-- The events of `kalloc()` on CPU `id`, in program order: those of `stealpage(id)`,
then `acquire(&kmem[id].lock)`, the store `kmem[id].freelist = r->next` when `r` is
not `NULL`, and `release(&kmem[id].lock)`. -/
def kallocEvents (c : Config) (fuel : Nat) (s : KState) (id : Nat) : List KEv :=
  stealpageEvents c fuel s id ++
    match stealpage c fuel s id with
    | .ret () s1 =>
      [.acquire id] ++ (if s1.freelist id ≠ 0 then [.wr id] else []) ++ [.release id]
    | _ => []

/-- Whether every store to a head pointer `kmem[k].freelist` in the event sequence
happens while the lock `kmem[k].lock` is held; the first argument is the locks held
at the start. -/
def writesUnderLock : List Nat → List KEv → Bool
  | _, [] => true
  | held, .acquire k :: es => writesUnderLock (k :: held) es
  | held, .release k :: es => writesUnderLock (held.erase k) es
  | held, .wr k :: es => decide (k ∈ held) && writesUnderLock held es

end Kalloc

/-! ## The buffer cache, `kernel/bio.c` -/

namespace Bio

/-- Number of hash buckets (`#define NBUCKETS 13`). -/
def NBUCKETS : Nat := 13

/-- Range of the C type `uint` of the field `refcnt`. -/
def U32 : Nat := 4294967296

/-- Address of a `struct buf` of `bcache`: the C `NULL`, the slot `bcache.buf[i]`, the
sentinel `bcache.buckets[i].head`, or the sentinel `bcache.unused.head`. -/
inductive Ptr where
  | null
  | buf (i : Nat)
  | bucket (i : Nat)
  | unused
  deriving DecidableEq, Repr

/-- The messages of the `panic` calls in `bio.c`. -/
inductive PanicMsg where
  /-- The message "refcnt not zero". -/
  | refcnt_not_zero
  /-- The message "bget: no buffers". -/
  | no_buffers
  /-- The message "bwrite". -/
  | bwrite
  /-- The message "brelse". -/
  | brelse
  deriving DecidableEq, Repr

/-- The memory of `bcache` field by field, the disk, and the log of disk transfers
(most recent first, `true` for a write, with the block number).
`holder b` is the process that holds the sleep lock `b->lock`, if any. -/
structure BState where
  next : Ptr → Ptr
  prev : Ptr → Ptr
  dev : Ptr → Nat
  blockno : Ptr → Nat
  valid : Ptr → Nat
  refcnt : Ptr → Nat
  holder : Ptr → Option Nat
  data : Ptr → Nat
  disk : Nat → Nat
  xfers : List (Bool × Nat)

/-- Store into one field of one `struct buf`. -/
def set {α : Type} (f : Ptr → α) (x : Ptr) (v : α) : Ptr → α :=
  fun y => if y = x then v else f y

/-- Outcome of a buffer-cache call for the calling process: normal return, `panic`
with the state at that moment, a dereference of `NULL`, a sleep on a content lock
that is held (the call does not return in a sequential execution), or an endless
loop. -/
inductive Res (α : Type) where
  | ret (v : α) (s : BState)
  | panic (m : PanicMsg) (s : BState)
  | fault (s : BState)
  | blocked (s : BState)
  | loops

def Res.val? {α : Type} : Res α → Option α
  | .ret v _ => some v
  | _ => none

def Res.state? {α : Type} : Res α → Option BState
  | .ret _ s => some s
  | _ => none

def Res.panicMsg? {α : Type} : Res α → Option PanicMsg
  | .panic m _ => some m
  | _ => none

/-- Modelled from the spec: the blocking lock of `sleeplock.c` ("acquire may suspend,
query held by me"). `acquiresleep` returns `none` when the caller has to sleep. -/
def acquiresleep (s : BState) (pid : Nat) (b : Ptr) : Option BState :=
  match s.holder b with
  | some _ => none
  | none => some { s with holder := set s.holder b (some pid) }

/-- Modelled from the spec: release of the blocking lock. -/
def releasesleep (s : BState) (b : Ptr) : BState :=
  { s with holder := set s.holder b none }

/-- Modelled from the spec: the query "held by me" of the blocking lock. -/
def holdingsleep (s : BState) (pid : Nat) (b : Ptr) : Bool :=
  s.holder b == some pid

/-- Modelled from the spec: the disk collaborator `transfer(buffer, isWrite)`, a
synchronous block-sized transfer between the buffer content and the device at the
buffer's block number. It touches the content, the disk and nothing else. -/
def virtio_disk_rw (s : BState) (b : Ptr) (write : Bool) : BState :=
  if write then
    { s with disk := fun n => if n = s.blockno b then s.data b else s.disk n,
             xfers := (true, s.blockno b) :: s.xfers }
  else
    { s with data := set s.data b (s.disk (s.blockno b)),
             xfers := (false, s.blockno b) :: s.xfers }

/-- The statically allocated, zero-filled `bcache` before `binit`, over a disk. -/
def boot (disk : Nat → Nat) : BState :=
  { next := fun _ => .null, prev := fun _ => .null, dev := fun _ => 0,
    blockno := fun _ => 0, valid := fun _ => 0, refcnt := fun _ => 0,
    holder := fun _ => none, data := fun _ => 0, disk := disk, xfers := [] }

/-- Body of the first loop of `binit` for bucket `i`. -/
def binitBucket (s : BState) (i : Nat) : BState :=
  -- bcache.buckets[i].head.prev = &bcache.buckets[i].head;
  let s : BState := { s with prev := set s.prev (.bucket i) (.bucket i) }
  -- bcache.buckets[i].head.next = &bcache.buckets[i].head;
  { s with next := set s.next (.bucket i) (.bucket i) }

/-- Body of the second loop of `binit` for the slot `b = &bcache.buf[i]`. -/
def binitBuf (s : BState) (i : Nat) : BState :=
  -- b->next = bcache.unused.head.next;
  let s : BState := { s with next := set s.next (.buf i) (s.next .unused) }
  -- b->prev = &bcache.unused.head;
  let s : BState := { s with prev := set s.prev (.buf i) .unused }
  -- initsleeplock(&b->lock, "buffer");
  let s : BState := { s with holder := set s.holder (.buf i) none }
  -- bcache.unused.head.next->prev = b;
  let s : BState := { s with prev := set s.prev (s.next .unused) (.buf i) }
  -- bcache.unused.head.next = b;
  { s with next := set s.next .unused (.buf i) }

/-- The function `binit()` for a pool of `NBUF` slots (`NBUF` comes from `param.h`). -/
def binit (NBUF : Nat) (s : BState) : BState :=
  let s := (List.range NBUCKETS).foldl binitBucket s
  -- bcache.unused.head.prev = &bcache.unused.head;
  let s : BState := { s with prev := set s.prev .unused .unused }
  -- bcache.unused.head.next = &bcache.unused.head;
  let s : BState := { s with next := set s.next .unused .unused }
  (List.range NBUF).foldl binitBuf s

/-- Result of the search loop of `bget`. -/
inductive Scan where
  | hit (b : Ptr)
  | miss
  | fault
  | loops
  deriving DecidableEq, Repr

/-- The search loop of `bget`:
`for (b = head.next; b != &head; b = b->next) if (b->dev == dev && b->blockno == blockno) ...`
started at `b`. -/
def bgetScan (s : BState) (dev blockno : Nat) (head : Ptr) : Nat → Ptr → Scan
  | 0, _ => .loops
  | fuel + 1, b =>
    if b = head then .miss
    else if b = .null then .fault
    else if s.dev b = dev ∧ s.blockno b = blockno then .hit b
    else bgetScan s dev blockno head fuel (s.next b)

/-- The "not cached" part of `bget`, lines 111 to 160, for the bucket sentinel `h`. -/
def bgetMiss (s : BState) (pid dev blockno : Nat) (h : Ptr) : Res Ptr :=
  -- b = bcache.unused.head.next;
  let b := s.next .unused
  -- if (b) { ... }  panic("bget: no buffers");
  if b = .null then .panic .no_buffers s
  -- if (b->refcnt != 0) panic("refcnt not zero");
  else if s.refcnt b ≠ 0 then .panic .refcnt_not_zero s
  else
    -- bcache.unused.head.next = b->next;
    let s : BState := { s with next := set s.next .unused (s.next b) }
    -- b->next->prev = &bcache.unused.head;
    if s.next b = .null then .fault s else
    let s : BState := { s with prev := set s.prev (s.next b) .unused }
    -- b->next = bcache.buckets[hash_index].head.next;
    let s : BState := { s with next := set s.next b (s.next h) }
    -- b->next->prev = b;
    if s.next b = .null then .fault s else
    let s : BState := { s with prev := set s.prev (s.next b) b }
    -- bcache.buckets[hash_index].head.next = b;
    let s : BState := { s with next := set s.next h b }
    -- b->prev = &bcache.buckets[hash_index].head;
    let s : BState := { s with prev := set s.prev b h }
    -- b->dev = dev; b->blockno = blockno; b->valid = 0; b->refcnt = 1;
    let s : BState := { s with dev := set s.dev b dev }
    let s : BState := { s with blockno := set s.blockno b blockno }
    let s : BState := { s with valid := set s.valid b 0 }
    let s : BState := { s with refcnt := set s.refcnt b 1 }
    -- acquiresleep(&b->lock); return b;
    match acquiresleep s pid b with
    | none => .blocked s
    | some s => .ret b s

/-- The function `bget(dev, blockno)` called by process `pid`. -/
def bget (fuel : Nat) (s : BState) (pid dev blockno : Nat) : Res Ptr :=
  -- int hash_index = blockno % NBUCKETS;
  let h := Ptr.bucket (blockno % NBUCKETS)
  match bgetScan s dev blockno h fuel (s.next h) with
  | .loops => .loops
  | .fault => .fault s
  | .hit b =>
    -- b->refcnt++;
    let s : BState := { s with refcnt := set s.refcnt b ((s.refcnt b + 1) % U32) }
    -- acquiresleep(&b->lock); return b;
    match acquiresleep s pid b with
    | none => .blocked s
    | some s => .ret b s
  | .miss => bgetMiss s pid dev blockno h

/-- The function `bread(dev, blockno)` called by process `pid`. -/
def bread (fuel : Nat) (s : BState) (pid dev blockno : Nat) : Res Ptr :=
  match bget fuel s pid dev blockno with
  | .ret b s =>
    -- if (!b->valid) { virtio_disk_rw(b, 0); b->valid = 1; }
    if s.valid b = 0 then
      let s := virtio_disk_rw s b false
      .ret b { s with valid := set s.valid b 1 }
    else .ret b s
  | r => r

/-- The function `bwrite(b)` called by process `pid`. -/
def bwrite (s : BState) (pid : Nat) (b : Ptr) : Res Unit :=
  if b = .null then .fault s
  -- if (!holdingsleep(&b->lock)) panic("bwrite");
  else if holdingsleep s pid b = false then .panic .bwrite s
  -- virtio_disk_rw(b, 1);
  else .ret () (virtio_disk_rw s b true)

/-- The function `brelse(b)` called by process `pid`. -/
def brelse (s : BState) (pid : Nat) (b : Ptr) : Res Unit :=
  if b = .null then .fault s
  -- if (!holdingsleep(&b->lock)) panic("brelse");
  else if holdingsleep s pid b = false then .panic .brelse s
  else
    -- releasesleep(&b->lock);
    let s := releasesleep s b
    -- b->refcnt--;
    let s : BState := { s with refcnt := set s.refcnt b ((s.refcnt b + U32 - 1) % U32) }
    -- if (b->refcnt == 0) { ... }
    if s.refcnt b = 0 then
      -- b->next->prev = b->prev;
      if s.next b = .null then .fault s else
      let s : BState := { s with prev := set s.prev (s.next b) (s.prev b) }
      -- b->prev->next = b->next;
      if s.prev b = .null then .fault s else
      let s : BState := { s with next := set s.next (s.prev b) (s.next b) }
      -- b->next = bcache.unused.head.next;
      let s : BState := { s with next := set s.next b (s.next .unused) }
      -- b->prev = &bcache.unused.head;
      let s : BState := { s with prev := set s.prev b .unused }
      -- bcache.unused.head.next->prev = b;
      if s.next .unused = .null then .fault s else
      let s : BState := { s with prev := set s.prev (s.next .unused) b }
      -- bcache.unused.head.next = b;
      let s : BState := { s with next := set s.next .unused b }
      .ret () s
    else .ret () s

/-- The function `bpin(b)`. -/
def bpin (s : BState) (b : Ptr) : Res Unit :=
  if b = .null then .fault s
  -- b->refcnt++;
  else .ret () { s with refcnt := set s.refcnt b ((s.refcnt b + 1) % U32) }

/-- The function `bunpin(b)`. -/
def bunpin (s : BState) (b : Ptr) : Res Unit :=
  if b = .null then .fault s
  -- b->refcnt--;
  else .ret () { s with refcnt := set s.refcnt b ((s.refcnt b + U32 - 1) % U32) }

/-- The nodes reached from `p` by `next` before the sentinel `head` comes up. -/
def chainFrom (s : BState) (head : Ptr) : Nat → Ptr → List Ptr
  | 0, _ => []
  | fuel + 1, p =>
    if p = head ∨ p = .null then [] else p :: chainFrom s head fuel (s.next p)

/-- The members of the chain with sentinel `head`, in order. -/
def chain (fuel : Nat) (s : BState) (head : Ptr) : List Ptr :=
  chainFrom s head fuel (s.next head)

/-- The sentinels of all chains: the buckets and the unused chain. -/
def heads : List Ptr :=
  (List.range NBUCKETS).map Ptr.bucket ++ [Ptr.unused]

/-- In how many chains the node `b` occurs. -/
def memberCount (fuel : Nat) (s : BState) (b : Ptr) : Nat :=
  (heads.filter (fun h => decide (b ∈ chain fuel s h))).length

/-- Whether the pointer is one of the slots `buf[0..NBUF-1]`. -/
def isSlot (NBUF : Nat) : Ptr → Bool
  | .buf i => decide (i < NBUF)
  | _ => false

/-- How many of the slots `buf[0..NBUF-1]` occur in each chain, added up. -/
def totalSlots (fuel NBUF : Nat) (s : BState) : Nat :=
  (heads.map (fun h => ((chain fuel s h).filter (isSlot NBUF)).length)).sum

/-- A call of the interface by a process. -/
inductive Call where
  | bread (pid dev blockno : Nat)
  | bwrite (pid : Nat) (b : Ptr)
  | brelse (pid : Nat) (b : Ptr)
  | bpin (b : Ptr)
  | bunpin (b : Ptr)

/-- State after one call that returns normally. -/
def step (fuel : Nat) (s : BState) : Call → Option BState
  | .bread pid dev blockno => (bread fuel s pid dev blockno).state?
  | .bwrite pid b => (bwrite s pid b).state?
  | .brelse pid b => (brelse s pid b).state?
  | .bpin b => (bpin s b).state?
  | .bunpin b => (bunpin s b).state?

/-- State after a sequence of calls, each of which returns normally. -/
def run (fuel : Nat) (s : BState) : List Call → Option BState
  | [] => some s
  | c :: cs =>
    match step fuel s c with
    | none => none
    | some s1 => run fuel s1 cs

/-- From the link `p` the chain runs through exactly the nodes `l`, none of them `NULL`
or the sentinel, and then reaches the sentinel `head`. -/
def Seg (next : Ptr → Ptr) (head : Ptr) : Ptr → List Ptr → Prop
  | p, [] => p = head
  | p, a :: l => p = a ∧ a ≠ head ∧ a ≠ .null ∧ Seg next head (next a) l

instance Seg.dec (next : Ptr → Ptr) (head : Ptr) :
    (p : Ptr) → (l : List Ptr) → Decidable (Seg next head p l)
  | p, [] => inferInstanceAs (Decidable (p = head))
  | p, a :: l =>
    have := Seg.dec next head (next a) l
    inferInstanceAs (Decidable (p = a ∧ a ≠ head ∧ a ≠ .null ∧ Seg next head (next a) l))

/-- The chain with sentinel `head` consists of exactly the nodes `l`, in this order. -/
def IsChain (s : BState) (head : Ptr) (l : List Ptr) : Prop :=
  Seg s.next head (s.next head) l

instance IsChain.dec (s : BState) (head : Ptr) (l : List Ptr) : Decidable (IsChain s head l) :=
  inferInstanceAs (Decidable (Seg s.next head (s.next head) l))

/-- Closed form of the state after the "not cached" path of `bget` has moved the buffer
`b` from the head of the unused chain to the head of the bucket `h`. -/
def missState (s : BState) (pid dev blockno : Nat) (h b : Ptr) : BState :=
  { next := set (set (set s.next .unused (s.next b)) b (s.next h)) h b,
    prev := set (set (set s.prev (s.next b) .unused) (s.next h) b) b h,
    dev := set s.dev b dev,
    blockno := set s.blockno b blockno,
    valid := set s.valid b 0,
    refcnt := set s.refcnt b 1,
    holder := set s.holder b (some pid),
    data := s.data, disk := s.disk, xfers := s.xfers }

/-- Closed form of the state after `bread` has read the block of `b` from the disk. -/
def readState (s : BState) (b : Ptr) : BState :=
  { s with data := set s.data b (s.disk (s.blockno b)),
           xfers := (false, s.blockno b) :: s.xfers,
           valid := set s.valid b 1 }

/-- Closed form of the state after `brelse` has dropped the last reference to `b` and
moved it from its chain to the head of the unused chain. -/
def reclaimState (s : BState) (b : Ptr) : BState :=
  { s with next := set (set (set s.next (s.prev b) (s.next b)) b (s.next .unused)) .unused b,
           prev := set (set (set s.prev (s.next b) (s.prev b)) b .unused) (s.next .unused) b,
           refcnt := set s.refcnt b 0,
           holder := set s.holder b none }

/-! ### Concrete states of the buffer cache used as test inputs -/

/-- A disk full of zeros. -/
def zeroDisk : Nat → Nat := fun _ => 0

/-- The cache right after `binit()` with `NBUF = 30`, the value of the stock `param.h`. -/
def s0 : BState := binit 30 (boot zeroDisk)

/-- Process 1 reads the blocks `0, 1, ..., k - 1` of device 1 and keeps every buffer. -/
def reads (k : Nat) : List Call :=
  (List.range k).map (fun n => Call.bread 1 1 n)

/-- The state after the calls `cs` from `s0` (`s0` itself if one of them does not
return). -/
def after (cs : List Call) : BState :=
  (run 64 s0 cs).getD s0

/-- Process 1 reads block 5 of device 1, pins the buffer, releases it, unpins it. -/
def pinScript : List Call :=
  [.bread 1 1 5, .bpin (.buf 29), .brelse 1 (.buf 29), .bunpin (.buf 29)]

/-- Starting at the node `q` (not included) and following `next`, the nodes passed are
exactly `l`, after which `e` comes. -/
def Path (next : Ptr → Ptr) : Ptr → List Ptr → Ptr → Prop
  | q, [], e => next q = e
  | q, a :: l, e => next q = a ∧ Path next a l e

/-- The last node of `q :: l`. -/
def lastOf : Ptr → List Ptr → Ptr
  | q, [] => q
  | _, a :: l => lastOf a l

/-- The `prev` link of every node of `l` points to the node before it, `q` being the
node before the first. -/
def Back (prev : Ptr → Ptr) : Ptr → List Ptr → Prop
  | _, [] => True
  | q, a :: l => prev a = q ∧ Back prev a l

/-- Every node of the list is a slot of the pool, not a sentinel and not `NULL`. -/
def AllSlots (l : List Ptr) : Prop :=
  ∀ x, x ∈ l → ∃ i, x = Ptr.buf i

/-- The data-model invariant of the buffer cache: every bucket chain is a doubly linked
chain of slots, the unused chain is a chain of slots, no slot is in two chains, every
buffer in a bucket chain has valid content, a buffer whose content lock is held is in
a bucket chain, and every reference count fits `uint`. -/
def BInv (s : BState) : Prop :=
  ∃ (L : Nat → List Ptr) (ul : List Ptr),
    (∀ i, i < NBUCKETS →
      IsChain s (.bucket i) (L i) ∧ Back s.prev (.bucket i) (L i) ∧ AllSlots (L i)) ∧
    IsChain s .unused ul ∧ AllSlots ul ∧
    (∀ i j, i < NBUCKETS → j < NBUCKETS → i ≠ j → ∀ x, x ∈ L i → x ∉ L j) ∧
    (∀ i, i < NBUCKETS → ∀ x, x ∈ L i → x ∉ ul) ∧
    (∀ i, i < NBUCKETS → ∀ x, x ∈ L i → s.valid x = 1) ∧
    (∀ x, s.holder x ≠ none → ∃ i, i < NBUCKETS ∧ x ∈ L i) ∧
    (∀ x, s.refcnt x < U32)

/-- The call `bread(dev, blockno)` in state `s` is a miss on an empty unused chain: the
search finds nothing and `unused.head.next` is the sentinel itself. -/
def ExhaustedMiss (fuel : Nat) (s : BState) (dev blockno : Nat) : Prop :=
  bgetScan s dev blockno (.bucket (blockno % NBUCKETS)) fuel
      (s.next (.bucket (blockno % NBUCKETS))) = .miss ∧
    s.next .unused = .unused

/-- The states reachable from `binit()` by `bread`, `brelse`, `bpin` and `bunpin` calls
that return, none of the `bread` calls being a miss on an empty unused chain. -/
inductive BReach (NBUF : Nat) : BState → Prop where
  | init (disk : Nat → Nat) : BReach NBUF (binit NBUF (boot disk))
  | bread (fuel : Nat) (s s1 : BState) (pid dev blockno : Nat) (b : Ptr) :
      BReach NBUF s → bread fuel s pid dev blockno = .ret b s1 →
      ¬ ExhaustedMiss fuel s dev blockno → BReach NBUF s1
  | brelse (s s1 : BState) (pid : Nat) (b : Ptr) :
      BReach NBUF s → brelse s pid b = .ret () s1 → BReach NBUF s1
  | bpin (s s1 : BState) (b : Ptr) :
      BReach NBUF s → bpin s b = .ret () s1 → BReach NBUF s1
  | bunpin (s s1 : BState) (b : Ptr) :
      BReach NBUF s → bunpin s b = .ret () s1 → BReach NBUF s1

instance ExhaustedMiss.dec (fuel : Nat) (s : BState) (dev blockno : Nat) :
    Decidable (ExhaustedMiss fuel s dev blockno) :=
  inferInstanceAs (Decidable (_ ∧ _))

/-- Process 1 reads block 5 of device 1, pins the buffer, releases it, and unpins it
twice. -/
def unpinTwice : List Call :=
  [.bread 1 1 5, .bpin (.buf 29), .brelse 1 (.buf 29), .bunpin (.buf 29), .bunpin (.buf 29)]

/-- The spin locks of `bcache`: `bcache.buckets[i].lock` and `bcache.unused.lock`. -/
inductive BLock where
  | bucket (i : Nat)
  | unused
  deriving DecidableEq, Repr

/-- Lock events of the buffer cache: `acquire` and `release` of a spin lock,
`acquiresleep` and `releasesleep` of the content lock of a buffer. -/
inductive BEv where
  | acquire (l : BLock)
  | release (l : BLock)
  | acquiresleep (b : Ptr)
  | releasesleep (b : Ptr)
  deriving DecidableEq, Repr

/-- The lock events of `bget(dev, blockno)`, in program order, up to the point where
the call returns, sleeps, panics, faults or loops. -/
def bgetEvents (fuel : Nat) (s : BState) (pid dev blockno : Nat) : List BEv :=
  let i := blockno % NBUCKETS
  -- acquire(&bcache.buckets[hash_index].lock);
  [.acquire (.bucket i)] ++
  match bgetScan s dev blockno (.bucket i) fuel (s.next (.bucket i)) with
  | .loops => []
  | .fault => []
  | .hit b =>
    -- release(&bcache.buckets[hash_index].lock); acquiresleep(&b->lock);
    [.release (.bucket i), .acquiresleep b]
  | .miss =>
    -- acquire(&bcache.unused.lock);
    [.acquire .unused] ++
    match bgetMiss s pid dev blockno (.bucket i) with
    | .ret b _ =>
      -- release(&bcache.buckets[hash_index].lock); release(&bcache.unused.lock);
      -- acquiresleep(&b->lock);
      [.release (.bucket i), .release .unused, .acquiresleep b]
    | .blocked _ =>
      [.release (.bucket i), .release .unused, .acquiresleep (s.next .unused)]
    | _ => []

/-- The lock events of `brelse(b)`, in program order, up to the point where the call
returns, panics or faults. -/
def brelseEvents (s : BState) (pid : Nat) (b : Ptr) : List BEv :=
  let i := s.blockno b % NBUCKETS
  match brelse s pid b with
  | .ret _ _ =>
    if (s.refcnt b + U32 - 1) % U32 = 0 then
      -- releasesleep; acquire(bucket); b->refcnt--; acquire(unused); ...;
      -- release(unused); release(bucket);
      [.releasesleep b, .acquire (.bucket i), .acquire .unused, .release .unused,
        .release (.bucket i)]
    else
      [.releasesleep b, .acquire (.bucket i), .release (.bucket i)]
  | .fault _ =>
    if b = .null then [] else [.releasesleep b, .acquire (.bucket i), .acquire .unused]
  | _ => []

/-- The lock events of `bpin(b)`, in program order. -/
def bpinEvents (s : BState) (b : Ptr) : List BEv :=
  if b = .null then []
  else
    -- acquire(&bcache.buckets[hash_index].lock); b->refcnt++; release(...);
    [.acquire (.bucket (s.blockno b % NBUCKETS)), .release (.bucket (s.blockno b % NBUCKETS))]

/-- The lock events of `bunpin(b)`, in program order. -/
def bunpinEvents (s : BState) (b : Ptr) : List BEv :=
  if b = .null then []
  else
    -- acquire(&bcache.buckets[hash_index].lock); b->refcnt--; release(...);
    [.acquire (.bucket (s.blockno b % NBUCKETS)), .release (.bucket (s.blockno b % NBUCKETS))]

/-- The lock order of the buffer cache on an event sequence, given the number of bucket
locks held and whether the unused-chain lock is held at its start: the unused-chain
lock is acquired only while a bucket lock is held, no bucket lock is acquired while
the unused-chain lock is held, and no content lock is acquired while a bucket lock or
the unused-chain lock is held. -/
def lockOrderOk : Nat → Bool → List BEv → Bool
  | _, _, [] => true
  | nb, u, .acquire (.bucket _) :: es => !u && lockOrderOk (nb + 1) u es
  | nb, _, .acquire .unused :: es => decide (0 < nb) && lockOrderOk nb true es
  | nb, u, .release (.bucket _) :: es => lockOrderOk (nb - 1) u es
  | nb, _, .release .unused :: es => lockOrderOk nb false es
  | nb, u, .acquiresleep _ :: es => decide (nb = 0) && !u && lockOrderOk nb u es
  | nb, u, .releasesleep _ :: es => lockOrderOk nb u es

/-- Process 1 reads thirty blocks that all hash to bucket 1 and keeps the buffers, then
reads block 0 and block 391 (which hashes to bucket 1). -/
def flood : List Call :=
  (List.range 30).map (fun k => Call.bread 1 1 (1 + 13 * k)) ++
    [.bread 1 1 0, .bread 1 1 391]

end Bio

/-! ## Theorems about the page allocator -/

namespace Kalloc

/-! ### Helper lemmas on the page heap -/

theorem upd_same (f : Nat → Nat) (x v : Nat) : upd f x v x = v := by
  simp [upd]

theorem upd_other (f : Nat → Nat) (x v y : Nat) (h : y ≠ x) : upd f x v y = f y := by
  simp [upd, h]

theorem upd_restore (f : Nat → Nat) (x v : Nat) : upd (upd f x v) x (f x) = f := by
  funext y
  by_cases h : y = x <;> simp [upd, h]

theorem IsList_head_ne_zero {next : Nat → Nat} {p a : Nat} {l : List Nat}
    (h : IsList next p (a :: l)) : p ≠ 0 ∧ p = a := ⟨h.1, h.2.1⟩

/-- Writing the link of a page that is not in the chain leaves the chain as it is. -/
theorem IsList_frame (next : Nat → Nat) (x v : Nat) :
    ∀ (l : List Nat) (p : Nat), x ∉ l → (IsList (upd next x v) p l ↔ IsList next p l) := by
  intro l
  induction l with
  | nil => intro p _; simp [IsList]
  | cons a l ih =>
    intro p hx
    have hax : a ≠ x := fun h => hx (by simp [h])
    have hxl : x ∉ l := fun h => hx (by simp [h])
    simp only [IsList, upd_other next x v a hax, ih (next a) hxl]

/-- A head pointer determines its chain. -/
theorem IsList_unique (next : Nat → Nat) :
    ∀ (l1 l2 : List Nat) (p : Nat), IsList next p l1 → IsList next p l2 → l1 = l2 := by
  intro l1
  induction l1 with
  | nil =>
    intro l2 p h1 h2
    cases l2 with
    | nil => rfl
    | cons b l2 => exact absurd h1 h2.1
  | cons a l1 ih =>
    intro l2 p h1 h2
    cases l2 with
    | nil => exact absurd h2 h1.1
    | cons b l2 =>
      have hab : a = b := h1.2.1.symm.trans h2.2.1
      subst hab
      rw [ih l2 (next a) h1.2.2 h2.2.2]

/-- The chain after any prefix is again a chain. -/
theorem IsList_append (next : Nat → Nat) :
    ∀ (l1 l2 : List Nat) (p : Nat), IsList next p (l1 ++ l2) →
      ∃ q, IsList next q l2 ∧ (l1 = [] → q = p) ∧
        (∀ a, l1.getLast? = some a → q = next a) := by
  intro l1
  induction l1 with
  | nil => intro l2 p h; exact ⟨p, h, fun _ => rfl, by simp⟩
  | cons a l1 ih =>
    intro l2 p h
    obtain ⟨q, hq, hnil, hlast⟩ := ih l2 (next a) h.2.2
    refine ⟨q, hq, by simp, ?_⟩
    intro b hb
    cases l1 with
    | nil =>
      simp at hb
      subst hb
      exact hnil rfl
    | cons a2 l1 =>
      apply hlast
      simpa [List.getLast?_cons_cons] using hb

/-- A null-terminated chain never visits a page twice. -/
theorem IsList_nodup (next : Nat → Nat) :
    ∀ (l : List Nat) (p : Nat), IsList next p l → l.Nodup := by
  intro l
  induction l with
  | nil => intro _ _; exact List.nodup_nil
  | cons a l ih =>
    intro p h
    refine List.nodup_cons.mpr ⟨?_, ih (next a) h.2.2⟩
    intro hmem
    obtain ⟨l1, l2, hl⟩ := List.append_of_mem hmem
    have h' : IsList next p ((a :: l1) ++ (a :: l2)) := by
      simpa [hl] using h
    obtain ⟨q, hq, _, hlast⟩ := IsList_append next (a :: l1) (a :: l2) p h'
    -- the chain from `a` is both `a :: l` and `a :: l2`
    have ha : IsList next a (a :: l) := ⟨h.2.1 ▸ h.1, rfl, h.2.2⟩
    have hq2 : IsList next a (a :: l2) := ⟨h.2.1 ▸ h.1, rfl, hq.2.2⟩
    have := IsList_unique next _ _ a ha hq2
    have hlen : l.length = l2.length := by
      have := congrArg List.length this
      simpa using this
    rw [hl] at hlen
    simp at hlen
    omega

/-- A page of a chain splits it: cutting the link after the page at index `i`
leaves the first `i + 1` pages at the old head and the rest at the old successor. -/
theorem IsList_cut (next : Nat → Nat) :
    ∀ (l : List Nat) (p i r : Nat), IsList next p l → l[i]? = some r →
      IsList (upd next r 0) p (l.take (i + 1)) ∧
      IsList (upd next r 0) (next r) (l.drop (i + 1)) := by
  intro l
  induction l with
  | nil => intro p i r _ h; simp at h
  | cons a l ih =>
    intro p i r h hi
    have hnd := IsList_nodup next _ p h
    have hal : a ∉ l := (List.nodup_cons.mp hnd).1
    cases i with
    | zero =>
      simp at hi
      subst hi
      refine ⟨?_, ?_⟩
      · have hp : p = a := h.2.1
        have ha0 : a ≠ 0 := hp ▸ h.1
        simp [IsList, upd_same, hp, ha0]
      · simpa using (IsList_frame next a 0 l (next a) hal).mpr h.2.2
    | succ j =>
      have hj : l[j]? = some r := by simpa using hi
      have hr : r ∈ l := List.getElem?_mem hj
      have har : a ≠ r := fun e => hal (e ▸ hr)
      obtain ⟨h1, h2⟩ := ih (next a) j r h.2.2 hj
      refine ⟨?_, ?_⟩
      · simp only [List.take_succ_cons, IsList]
        exact ⟨h.1, h.2.1, by rw [upd_other next r 0 a har]; exact h1⟩
      · simpa using h2

/-- The slow pointer of the walk stops at index `(n - 1) / 2` of the slow chain,
where `n` is the length of the fast chain. -/
theorem walk_spec (next : Nat → Nat) :
    ∀ (fuel : Nat) (lq lp : List Nat) (p q : Nat), IsList next q lq → IsList next p lp →
      lq ≠ [] → lq.length ≤ lp.length → lq.length ≤ 2 * fuel →
      ∃ r, walk next fuel p q = some r ∧ lp[(lq.length - 1) / 2]? = some r := by
  intro fuel
  induction fuel with
  | zero =>
    intro lq lp p q _ _ hne _ hf
    cases lq with
    | nil => exact absurd rfl hne
    | cons a t => simp at hf
  | succ fuel ih =>
    intro lq lp p q hq hp hne hlen hf
    cases lp with
    | nil =>
      cases lq with
      | nil => exact absurd rfl hne
      | cons a t => simp at hlen
    | cons a lp =>
      have hpa : p = a := hp.2.1
      cases lq with
      | nil => exact absurd rfl hne
      | cons q0 t =>
        have hq0 : q = q0 := hq.2.1
        cases t with
        | nil =>
          have hz : next q = 0 := by rw [hq0]; exact hq.2.2
          exact ⟨p, by simp [walk, hz], by simp [hpa]⟩
        | cons q1 t =>
          have hq1 : next q = q1 := by rw [hq0]; exact hq.2.2.2.1
          have hq1ne : next q ≠ 0 := by rw [hq0]; exact hq.2.2.1
          cases t with
          | nil =>
            have hz : next (next q) = 0 := by rw [hq1]; exact hq.2.2.2.2
            exact ⟨p, by simp [walk, hz], by simp [hpa]⟩
          | cons q2 t =>
            have hq2ne : next (next q) ≠ 0 := by rw [hq1]; exact hq.2.2.2.2.1
            have hq2 : IsList next (next (next q)) (q2 :: t) := by
              rw [hq1]; exact hq.2.2.2.2
            have hp' : IsList next (next p) lp := by rw [hpa]; exact hp.2.2
            simp only [List.length_cons] at hlen hf
            obtain ⟨r, hr, hidx⟩ := ih (q2 :: t) lp (next p) (next (next q)) hq2 hp'
              (by simp) (by simp only [List.length_cons]; omega)
              (by simp only [List.length_cons]; omega)
            refine ⟨r, by simp [walk, hq1ne, hq2ne, hr], ?_⟩
            simp only [List.length_cons] at hidx ⊢
            have e : (t.length + 1 + 1 + 1 - 1) / 2 = (t.length + 1 - 1) / 2 + 1 := by omega
            rw [e]
            simpa using hidx

theorem mod_shift_ne (N id i : Nat) (hid : id < N) (h1 : 1 ≤ i) (h2 : i < N) :
    (id + i) % N ≠ id := by
  by_cases h : id + i < N
  · rw [Nat.mod_eq_of_lt h]; omega
  · have e : id + i = (id + i - N) + N := by omega
    rw [e, Nat.add_mod_right, Nat.mod_eq_of_lt (by omega)]
    omega

theorem mod_shift_full (N id : Nat) (hid : id < N) : (id + N) % N = id := by
  rw [Nat.add_mod_right, Nat.mod_eq_of_lt hid]

/-- The donor loop skips CPUs whose free list is empty. -/
theorem stealLoop_skip (c : Config) (fuel : Nat) (s : KState) (id : Nat) (hid : id < c.NCPU) :
    ∀ (d j : Nat), 1 ≤ j → j + d ≤ c.NCPU →
      (∀ i, j ≤ i → i < j + d → s.freelist ((id + i) % c.NCPU) = 0) →
      stealLoop c fuel s id (c.NCPU + 1 - j) ((id + j) % c.NCPU) =
        stealLoop c fuel s id (c.NCPU + 1 - (j + d)) ((id + (j + d)) % c.NCPU) := by
  intro d
  induction d with
  | zero => intro j _ _ _; rfl
  | succ d ih =>
    intro j hj hle hz
    have e : c.NCPU + 1 - j = (c.NCPU - j) + 1 := by omega
    have hne : (id + j) % c.NCPU ≠ id := mod_shift_ne _ _ _ hid hj (by omega)
    have hzj : s.freelist ((id + j) % c.NCPU) = 0 := hz j (le_refl _) (by omega)
    rw [e]
    simp only [stealLoop, hne, hzj, if_true, if_false]
    rw [Nat.mod_add_mod]
    have e2 : c.NCPU - j = c.NCPU + 1 - (j + 1) := by omega
    have e3 : id + j + 1 = id + (j + 1) := by omega
    rw [e2, e3, ih (j + 1) (by omega) (by omega) (fun i h1 h2 => hz i (by omega) (by omega))]
    have e4 : j + 1 + d = j + (d + 1) := by omega
    rw [e4]

/-- With no donor at all the loop ends without touching the state. -/
theorem stealLoop_none (c : Config) (fuel : Nat) (s : KState) (id : Nat) (hid : id < c.NCPU)
    (hz : ∀ i, 1 ≤ i → i < c.NCPU → s.freelist ((id + i) % c.NCPU) = 0) :
    stealLoop c fuel s id c.NCPU ((id + 1) % c.NCPU) = .ret () s := by
  have h := stealLoop_skip c fuel s id hid (c.NCPU - 1) 1 (le_refl _) (by omega)
    (fun i h1 h2 => hz i h1 (by omega))
  have e1 : c.NCPU + 1 - 1 = c.NCPU := by omega
  have e2 : 1 + (c.NCPU - 1) = c.NCPU := by omega
  rw [e1, e2] at h
  rw [h, mod_shift_full _ _ hid]
  have e3 : c.NCPU + 1 - c.NCPU = 0 + 1 := by omega
  rw [e3]
  simp [stealLoop]

/-- One donation: the loop at a donor `k ≠ id` whose chain is `l`. The thief gets the
first `(n + 1) / 2` pages, the donor keeps the rest. -/
theorem stealLoop_take (c : Config) (fuel : Nat) (s : KState) (id k n : Nat) (l : List Nat)
    (hk : k ≠ id) (hl : IsList s.next (s.freelist k) l) (hne : l ≠ [])
    (hf : l.length ≤ fuel) :
    ∃ r, r ∈ l ∧
      stealLoop c fuel s id (n + 1) k = .ret ()
        { freelist := upd (upd s.freelist id (s.freelist k)) k (s.next r),
          next := upd s.next r 0 } ∧
      IsList (upd s.next r 0) (s.freelist k) (l.take ((l.length + 1) / 2)) ∧
      IsList (upd s.next r 0) (s.next r) (l.drop ((l.length + 1) / 2)) := by
  have hk0 : s.freelist k ≠ 0 := by
    cases l with
    | nil => exact absurd rfl hne
    | cons a t => exact hl.1
  obtain ⟨r, hw, hidx⟩ := walk_spec s.next fuel l l _ _ hl hl hne (le_refl _) (by omega)
  have hcut := IsList_cut s.next l _ _ r hl hidx
  have hlen : 1 ≤ l.length := by
    cases l with
    | nil => exact absurd rfl hne
    | cons a t => simp
  have e : (l.length - 1) / 2 + 1 = (l.length + 1) / 2 := by omega
  rw [e] at hcut
  refine ⟨r, List.getElem?_mem hidx, ?_, hcut.1, hcut.2⟩
  simp [stealLoop, hk, hk0, hw]

theorem upd_self (f : Nat → Nat) (x : Nat) : upd f x (f x) = f := by
  funext y
  by_cases h : y = x <;> simp [upd, h]

theorem upd_upd_same (f : Nat → Nat) (x v w : Nat) : upd (upd f x v) x w = upd f x w := by
  funext y
  by_cases h : y = x <;> simp [upd, h]

/-- The result of `stealpage` when the first non-empty CPU after `id` is
`(id + j) % NCPU` and its chain is `l`. -/
theorem stealpage_donor (c : Config) (fuel : Nat) (s : KState) (id j : Nat) (l : List Nat)
    (hid : id < c.NCPU) (h0 : s.freelist id = 0) (hj1 : 1 ≤ j) (hjN : j < c.NCPU)
    (hz : ∀ i, 1 ≤ i → i < j → s.freelist ((id + i) % c.NCPU) = 0)
    (hl : IsList s.next (s.freelist ((id + j) % c.NCPU)) l) (hne : l ≠ [])
    (hf : l.length ≤ fuel) :
    ∃ r, r ∈ l ∧
      stealpage c fuel s id = .ret ()
        { freelist := upd (upd s.freelist id (s.freelist ((id + j) % c.NCPU)))
            ((id + j) % c.NCPU) (s.next r),
          next := upd s.next r 0 } ∧
      IsList (upd s.next r 0) (s.freelist ((id + j) % c.NCPU)) (l.take ((l.length + 1) / 2)) ∧
      IsList (upd s.next r 0) (s.next r) (l.drop ((l.length + 1) / 2)) := by
  have hk : (id + j) % c.NCPU ≠ id := mod_shift_ne _ _ _ hid hj1 hjN
  obtain ⟨r, hr, hrun, ht, hd⟩ :=
    stealLoop_take c fuel s id ((id + j) % c.NCPU) (c.NCPU - j) l hk hl hne hf
  refine ⟨r, hr, ?_, ht, hd⟩
  have hskip := stealLoop_skip c fuel s id hid (j - 1) 1 (le_refl _) (by omega)
    (fun i h1 h2 => hz i h1 (by omega))
  have e1 : c.NCPU + 1 - 1 = c.NCPU := by omega
  have e2 : 1 + (j - 1) = j := by omega
  have e3 : c.NCPU + 1 - j = c.NCPU - j + 1 := by omega
  rw [e1, e2, e3] at hskip
  unfold stealpage
  rw [if_neg (by simp [h0]), hskip, hrun]

/-- The result of `stealpage` when no other CPU has a free page. -/
theorem stealpage_no_donor (c : Config) (fuel : Nat) (s : KState) (id : Nat)
    (hid : id < c.NCPU)
    (hz : ∀ k, k < c.NCPU → k ≠ id → s.freelist k = 0) :
    stealpage c fuel s id = .ret () s := by
  unfold stealpage
  by_cases h0 : s.freelist id = 0
  · rw [if_neg (by simp [h0])]
    exact stealLoop_none c fuel s id hid (fun i h1 h2 =>
      hz _ (Nat.mod_lt _ (by omega)) (mod_shift_ne _ _ _ hid h1 h2))
  · rw [if_pos h0]

/-- Claim C2 (as amended). With `kernelEnd > 0`, for every state and every page-aligned
`P` in `[kernelEnd, physTop)`, `kfree(P)` followed by `kalloc()` on the same CPU
returns exactly `P` and restores every head pointer `kmem[k].freelist`; every free
list that did not already contain `P` (in particular the caller's, when `P` is not
freed twice) is the same list of pages after the pair as before it. -/
theorem kfree_then_kalloc_returns_page (c : Config) (fuel : Nat) (s : KState) (id P : Nat)
    (hk : 0 < c.kend) (hal : P % c.PGSIZE = 0) (hlo : c.kend ≤ P) (hhi : P < c.PHYSTOP) :
    ∃ s1 s2, kfree c s id P = .ret () s1 ∧ kalloc c fuel s1 id = .ret P s2 ∧
      s2.freelist = s.freelist ∧
      ∀ k l, IsList s.next (s.freelist k) l → P ∉ l → IsList s2.next (s2.freelist k) l := by
  have hP : P ≠ 0 := by omega
  have hc : ¬(P % c.PGSIZE ≠ 0 ∨ P < c.kend ∨ P ≥ c.PHYSTOP) := by
    intro h
    rcases h with h | h | h
    · exact h hal
    · omega
    · omega
  refine ⟨{ freelist := upd s.freelist id P,
            next := upd (upd s.next P junkFree) P (s.freelist id) },
          { freelist := s.freelist, next := upd s.next P junkAlloc }, ?_, ?_, rfl, ?_⟩
  · unfold kfree
    rw [if_neg hc]
  · simp [kalloc, stealpage, upd_same, hP, upd_upd_same, upd_restore, upd_self]
  · intro k l hl hPl
    exact (IsList_frame s.next P junkAlloc l _ hPl).mpr hl

/-- Claim C3 (as amended). `kfree(pa)` panics exactly when `pa` is not a multiple of the
page size, or is below `end`, or is at or above `PHYSTOP`; a panic leaves the whole
state as it was; without a panic `pa` is the new head of the caller's list and links
to the previous head, every other head pointer is unchanged, and for a `pa` that was
not already on the list concerned the caller's list is `pa` followed by the previous
list and every other CPU's list is unchanged. -/
theorem kfree_panics_iff_and_pushes (c : Config) (s : KState) (id pa : Nat)
    (hk : 0 < c.kend) :
    ((kfree c s id pa).aborted = true ↔
        (pa % c.PGSIZE ≠ 0 ∨ pa < c.kend ∨ c.PHYSTOP ≤ pa)) ∧
    ((kfree c s id pa).aborted = true → kfree c s id pa = .panic s) ∧
    ((kfree c s id pa).aborted = false →
      ∃ s', kfree c s id pa = .ret () s' ∧
        s'.freelist id = pa ∧ s'.next pa = s.freelist id ∧
        (∀ k, k ≠ id → s'.freelist k = s.freelist k) ∧
        (∀ l, IsList s.next (s.freelist id) l → pa ∉ l →
          IsList s'.next (s'.freelist id) (pa :: l)) ∧
        (∀ k l, k ≠ id → IsList s.next (s.freelist k) l → pa ∉ l →
          IsList s'.next (s'.freelist k) l)) := by
  by_cases hc : pa % c.PGSIZE ≠ 0 ∨ pa < c.kend ∨ pa ≥ c.PHYSTOP
  · have e : kfree c s id pa = .panic s := by unfold kfree; rw [if_pos hc]
    refine ⟨?_, fun _ => e, ?_⟩
    · rw [e]; simpa [KRes.aborted] using hc
    · rw [e]; simp [KRes.aborted]
  · have e : kfree c s id pa = .ret ()
        { freelist := upd s.freelist id pa,
          next := upd (upd s.next pa junkFree) pa (s.freelist id) } := by
      unfold kfree; rw [if_neg hc]
    have hpa : pa ≠ 0 := by
      intro h0
      apply hc
      right; left
      omega
    refine ⟨?_, ?_, ?_⟩
    · rw [e]
      simp only [KRes.aborted]
      constructor
      · intro h; simp at h
      · intro h; exact absurd h hc
    · rw [e]; simp [KRes.aborted]
    · intro _
      refine ⟨_, e, upd_same _ _ _, upd_same _ _ _, fun k hki => upd_other _ _ _ _ hki, ?_, ?_⟩
      · intro l hl hpl
        refine ⟨?_, ?_, ?_⟩
        · simpa [upd_same] using hpa
        · exact upd_same _ _ _
        · show IsList (upd (upd s.next pa junkFree) pa (s.freelist id))
            (upd (upd s.next pa junkFree) pa (s.freelist id) pa) l
          rw [upd_same, upd_upd_same]
          exact (IsList_frame s.next pa _ l _ hpl).mpr hl
      · intro k l hki hl hpl
        show IsList (upd (upd s.next pa junkFree) pa (s.freelist id)) (upd s.freelist id pa k) l
        rw [upd_other _ _ _ _ hki, upd_upd_same]
        exact (IsList_frame s.next pa _ l _ hpl).mpr hl

/-- Claim C5 (as amended). When `stealpage(id)` takes from the donor (the first CPU after
`id` with a non-empty list) and the donor's list has `n ≥ 1` pages, the thief receives
`(n + 1) / 2` pages and the donor keeps `n / 2`: equal halves for an even `n`, and for
an odd `n` the thief receives the extra page, `(n + 1) / 2` against `(n - 1) / 2`. -/
theorem stealpage_split_sizes (c : Config) (fuel : Nat) (s : KState) (id j : Nat)
    (l : List Nat)
    (hid : id < c.NCPU) (h0 : s.freelist id = 0) (hj1 : 1 ≤ j) (hjN : j < c.NCPU)
    (hz : ∀ i, 1 ≤ i → i < j → s.freelist ((id + i) % c.NCPU) = 0)
    (hl : IsList s.next (s.freelist ((id + j) % c.NCPU)) l) (hne : l ≠ [])
    (hf : l.length ≤ fuel) :
    ∃ s' lt ld, stealpage c fuel s id = .ret () s' ∧
      IsList s'.next (s'.freelist id) lt ∧
      IsList s'.next (s'.freelist ((id + j) % c.NCPU)) ld ∧
      (l.length % 2 = 0 → lt.length = l.length / 2 ∧ ld.length = l.length / 2) ∧
      (l.length % 2 = 1 → lt.length = (l.length + 1) / 2 ∧ ld.length = (l.length - 1) / 2) := by
  obtain ⟨r, _, hst, ht, hd⟩ := stealpage_donor c fuel s id j l hid h0 hj1 hjN hz hl hne hf
  have hk : id ≠ (id + j) % c.NCPU := fun e => mod_shift_ne _ _ _ hid hj1 hjN e.symm
  refine ⟨_, l.take ((l.length + 1) / 2), l.drop ((l.length + 1) / 2), hst, ?_, ?_, ?_, ?_⟩
  · show IsList (upd s.next r 0) (upd (upd s.freelist id _) _ _ id) _
    rw [upd_other _ _ _ _ hk, upd_same]
    exact ht
  · show IsList (upd s.next r 0) (upd (upd s.freelist id _) _ _ _) _
    rw [upd_same]
    exact hd
  · intro he
    simp only [List.length_take, List.length_drop]
    omega
  · intro ho
    simp only [List.length_take, List.length_drop]
    omega

/-- Witness for claim C2: the hypotheses hold for `pgC` in the state `sPair`. -/
theorem kfree_then_kalloc_returns_page_witness :
    0 < cfg1.kend ∧ pgC % cfg1.PGSIZE = 0 ∧ cfg1.kend ≤ pgC ∧ pgC < cfg1.PHYSTOP ∧
    ∃ s1 s2, kfree cfg1 sPair 0 pgC = .ret () s1 ∧ kalloc cfg1 8 s1 0 = .ret pgC s2 ∧
      s2.freelist = sPair.freelist ∧
      ∀ k l, IsList sPair.next (sPair.freelist k) l → pgC ∉ l →
        IsList s2.next (s2.freelist k) l :=
  ⟨by decide, by decide, by decide, by decide,
    kfree_then_kalloc_returns_page cfg1 8 sPair 0 pgC (by decide) (by decide) (by decide)
      (by decide)⟩

/-- Counterexample to claim C2 as stated: `pgB` is page-aligned and inside
`[kernelEnd, physTop)` but already on the free list `pgA → pgB`; after `kfree(pgB)`
and `kalloc()` (which does return `pgB`) the free list is no longer `pgA → pgB`. -/
theorem kfree_kalloc_double_free_changes_list :
    pgB % cfg1.PGSIZE = 0 ∧ cfg1.kend ≤ pgB ∧ pgB < cfg1.PHYSTOP ∧
    IsList sPair.next (sPair.freelist 0) [pgA, pgB] ∧
    ∃ s1 s2, kfree cfg1 sPair 0 pgB = .ret () s1 ∧ kalloc cfg1 8 s1 0 = .ret pgB s2 ∧
      ¬ IsList s2.next (s2.freelist 0) [pgA, pgB] := by
  refine ⟨by decide, by decide, by decide, by decide, _, _, rfl, rfl, by decide⟩

/-- Witness for claim C3. -/
theorem kfree_panics_iff_and_pushes_witness :
    0 < cfg2.kend ∧
    ((kfree cfg2 sSplit 0 pgC).aborted = true ↔
        (pgC % cfg2.PGSIZE ≠ 0 ∨ pgC < cfg2.kend ∨ cfg2.PHYSTOP ≤ pgC)) :=
  ⟨by decide, (kfree_panics_iff_and_pushes cfg2 sSplit 0 pgC (by decide)).1⟩

/-- Counterexample to claim C3 as stated: CPU 1 owns `pgB`; `kfree(pgB)` on CPU 0 does
not panic, and CPU 1's list changes from `pgB` to `pgB → pgA`. -/
theorem kfree_foreign_page_changes_other_list :
    IsList sSplit.next (sSplit.freelist 1) [pgB] ∧
    ∃ s', kfree cfg2 sSplit 0 pgB = .ret () s' ∧
      ¬ IsList s'.next (s'.freelist 1) [pgB] ∧
      IsList s'.next (s'.freelist 1) [pgB, pgA] := by
  refine ⟨by decide, _, rfl, by decide, by decide⟩

/-- Witness for claim C5: the donor CPU 0 holds three pages. -/
theorem stealpage_split_sizes_witness :
    ∃ s' lt ld, stealpage cfg2 8 sOdd 1 = .ret () s' ∧
      IsList s'.next (s'.freelist 1) lt ∧
      IsList s'.next (s'.freelist ((1 + 1) % cfg2.NCPU)) ld ∧
      ([pgA, pgB, pgC].length % 2 = 0 →
        lt.length = [pgA, pgB, pgC].length / 2 ∧ ld.length = [pgA, pgB, pgC].length / 2) ∧
      ([pgA, pgB, pgC].length % 2 = 1 →
        lt.length = ([pgA, pgB, pgC].length + 1) / 2 ∧
        ld.length = ([pgA, pgB, pgC].length - 1) / 2) :=
  stealpage_split_sizes cfg2 8 sOdd 1 1 [pgA, pgB, pgC] (by decide) (by decide) (by decide)
    (by decide) (by intro i h1 h2; omega) (by decide) (by simp) (by decide)

/-- Counterexample to claim C5 as stated: the donor CPU 0 holds `n = 3` pages and CPU 1
steals; the thief gets the two pages `pgA → pgB` and the donor keeps `pgC` alone, not
`(n - 1) / 2 = 1` page for the thief and `(n + 1) / 2 = 2` for the donor. -/
theorem stealpage_odd_thief_gets_extra :
    IsList sOdd.next (sOdd.freelist 0) [pgA, pgB, pgC] ∧ sOdd.freelist 1 = 0 ∧
    ∃ s', stealpage cfg2 8 sOdd 1 = .ret () s' ∧
      IsList s'.next (s'.freelist 1) [pgA, pgB] ∧
      IsList s'.next (s'.freelist 0) [pgC] ∧
      ¬ ∃ lt ld, IsList s'.next (s'.freelist 1) lt ∧ IsList s'.next (s'.freelist 0) ld ∧
          lt.length = (3 - 1) / 2 ∧ ld.length = (3 + 1) / 2 := by
  refine ⟨by decide, by decide, _, rfl, by decide, by decide, ?_⟩
  rintro ⟨lt, ld, h1, _, h3, _⟩
  have h : IsList (upd sOdd.next pgB 0) pgA [pgA, pgB] := by decide
  have e := IsList_unique _ _ _ _ h1 h
  rw [e] at h3
  simp at h3

/-- Two multiples of the page size that differ are at least a page apart. -/
theorem aligned_step (PG p x : Nat) (hp : p % PG = 0) (hx : x % PG = 0) (h : p < x) :
    p + PG ≤ x := by
  obtain ⟨a, ha⟩ := Nat.dvd_of_mod_eq_zero hp
  obtain ⟨b, hb⟩ := Nat.dvd_of_mod_eq_zero hx
  subst ha hb
  have hab : a < b := by
    by_contra hcon
    have : PG * b ≤ PG * a := Nat.mul_le_mul_left PG (by omega)
    omega
  have : PG * (a + 1) ≤ PG * b := Nat.mul_le_mul_left PG (by omega)
  rw [Nat.mul_add, Nat.mul_one] at this
  exact this

/-- What `PGROUNDUP` computes when the addition does not wrap. -/
theorem PGROUNDUP_spec (c : Config) (a : Nat) (hPG : 0 < c.PGSIZE)
    (hw : a + c.PGSIZE ≤ U64) :
    PGROUNDUP c a % c.PGSIZE = 0 ∧ a ≤ PGROUNDUP c a ∧ PGROUNDUP c a < a + c.PGSIZE ∧
    ∀ x, x % c.PGSIZE = 0 → a ≤ x → PGROUNDUP c a ≤ x := by
  have e : (a + c.PGSIZE - 1) % U64 = a + c.PGSIZE - 1 := Nat.mod_eq_of_lt (by omega)
  unfold PGROUNDUP
  rw [e]
  have h1 := Nat.div_add_mod (a + c.PGSIZE - 1) c.PGSIZE
  have h2 := Nat.mod_lt (a + c.PGSIZE - 1) hPG
  have h3 : (a + c.PGSIZE - 1) / c.PGSIZE * c.PGSIZE =
      c.PGSIZE * ((a + c.PGSIZE - 1) / c.PGSIZE) := Nat.mul_comm _ _
  refine ⟨Nat.mul_mod_left _ _, by omega, by omega, ?_⟩
  intro x hx hax
  obtain ⟨b, hb⟩ := Nat.dvd_of_mod_eq_zero hx
  subst hb
  have hle : (a + c.PGSIZE - 1) / c.PGSIZE ≤ b := by
    apply Nat.le_of_lt_succ
    rw [Nat.div_lt_iff_lt_mul hPG]
    have : b.succ * c.PGSIZE = c.PGSIZE * b + c.PGSIZE := by
      rw [Nat.succ_mul, Nat.mul_comm]
    omega
  rw [h3]
  exact Nat.mul_le_mul_left _ hle

/-- The loop of `freerange` started at an aligned address `p` above every page already
on the list: it returns, and has pushed exactly the aligned `x ≥ p` with
`x + PGSIZE ≤ top`. -/
theorem freerangeLoop_spec (c : Config) (id top : Nat) (hPG : 0 < c.PGSIZE)
    (hk : 0 < c.kend) (htop : top ≤ c.PHYSTOP) (hw : c.PHYSTOP + 2 * c.PGSIZE ≤ U64) :
    ∀ (fuel : Nat) (s : KState) (p : Nat) (l0 : List Nat),
      IsList s.next (s.freelist id) l0 → (∀ x, x ∈ l0 → x < p) → p % c.PGSIZE = 0 →
      c.kend ≤ p → p < top + c.PGSIZE → 0 < fuel → top < p + fuel * c.PGSIZE →
      ∃ s' l, freerangeLoop c id top fuel s p = .ret () s' ∧
        IsList s'.next (s'.freelist id) (l ++ l0) ∧
        (∀ x, x ∈ l ↔ (p ≤ x ∧ x % c.PGSIZE = 0 ∧ x + c.PGSIZE ≤ top)) ∧
        (∀ k, k ≠ id → s'.freelist k = s.freelist k) := by
  intro fuel
  induction fuel with
  | zero =>
    intro s p l0 _ _ _ _ _ h1 _
    exact absurd h1 (Nat.lt_irrefl _)
  | succ fuel ih =>
    intro s p l0 hl hlt hal hkp hpt _ hfuel
    have e : (p + c.PGSIZE) % U64 = p + c.PGSIZE := Nat.mod_eq_of_lt (by omega)
    by_cases hc : p + c.PGSIZE ≤ top
    · -- one more page
      have hp0 : p ≠ 0 := by omega
      have hcheck : ¬(p % c.PGSIZE ≠ 0 ∨ p < c.kend ∨ p ≥ c.PHYSTOP) := by
        intro h
        rcases h with h | h | h
        · exact h hal
        · omega
        · omega
      have hfree : kfree c s id p = .ret ()
          { freelist := upd s.freelist id p,
            next := upd (upd s.next p junkFree) p (s.freelist id) } := by
        unfold kfree
        rw [if_neg hcheck]
      have hpl : p ∉ l0 := fun hm => Nat.lt_irrefl _ (hlt p hm)
      have hl1 : IsList (upd (upd s.next p junkFree) p (s.freelist id))
          (upd s.freelist id p id) (p :: l0) := by
        refine ⟨by rw [upd_same]; exact hp0, upd_same _ _ _, ?_⟩
        rw [upd_same, upd_upd_same]
        exact (IsList_frame s.next p _ l0 _ hpl).mpr hl
      have hfuel2 : top < p + c.PGSIZE + fuel * c.PGSIZE := by
        have : (fuel + 1) * c.PGSIZE = fuel * c.PGSIZE + c.PGSIZE := by
          rw [Nat.add_mul, Nat.one_mul]
        omega
      have hfuel0 : 0 < fuel := by
        rcases Nat.eq_zero_or_pos fuel with h | h
        · subst h
          simp at hfuel2
          omega
        · exact h
      obtain ⟨s', l, hrun, hlist, hmem, hfr⟩ := ih
        { freelist := upd s.freelist id p,
          next := upd (upd s.next p junkFree) p (s.freelist id) }
        (p + c.PGSIZE) (p :: l0) hl1
        (by
          intro x hx
          rcases List.mem_cons.mp hx with h | h
          · omega
          · have := hlt x h
            omega)
        (by rw [Nat.add_mod_right]; exact hal) (by omega) (by omega) hfuel0 hfuel2
      refine ⟨s', l ++ [p], ?_, ?_, ?_, ?_⟩
      · simp only [freerangeLoop, e, if_pos hc, hfree]
        exact hrun
      · simpa using hlist
      · intro x
        rw [List.mem_append, hmem x]
        constructor
        · intro h
          rcases h with ⟨h1, h2, h3⟩ | h
          · exact ⟨by omega, h2, h3⟩
          · have : x = p := by simpa using h
            subst this
            exact ⟨le_refl _, hal, hc⟩
        · intro ⟨h1, h2, h3⟩
          by_cases hxp : x = p
          · right; simp [hxp]
          · left
            exact ⟨aligned_step c.PGSIZE p x hal h2 (by omega), h2, h3⟩
      · intro k hki
        rw [hfr k hki]
        exact upd_other _ _ _ _ hki
    · refine ⟨s, [], ?_, by simpa using hl, ?_, fun _ _ => rfl⟩
      · simp only [freerangeLoop, e, if_neg hc]
      · intro x
        simp only [List.not_mem_nil, false_iff]
        intro ⟨h1, _, h3⟩
        omega

/-- The free lists after `kinit()` on CPU `id`, from a state with empty free lists. -/
theorem kinit_lists (c : Config) (fuel : Nat) (s : KState) (id : Nat)
    (hPG : 0 < c.PGSIZE) (hk : 0 < c.kend) (hle : c.kend ≤ c.PHYSTOP)
    (hw : c.PHYSTOP + 2 * c.PGSIZE ≤ U64)
    (hempty : ∀ k, s.freelist k = 0)
    (hfuel : c.PHYSTOP < c.kend + fuel * c.PGSIZE) :
    ∃ s' l, kinit c fuel s id = .ret () s' ∧
      IsList s'.next (s'.freelist id) l ∧ l.Nodup ∧
      (∀ p, p ∈ l ↔ (p % c.PGSIZE = 0 ∧ c.kend ≤ p ∧ p + c.PGSIZE ≤ c.PHYSTOP)) ∧
      (∀ k, k ≠ id → s'.freelist k = 0) := by
  obtain ⟨hr1, hr2, hr3, hr4⟩ := PGROUNDUP_spec c c.kend hPG (by omega)
  have hl0 : IsList s.next (s.freelist id) [] := hempty id
  have hfuel0 : 0 < fuel := by
    rcases Nat.eq_zero_or_pos fuel with h | h
    · subst h
      simp at hfuel
      omega
    · exact h
  obtain ⟨s', l, hrun, hlist, hmem, hfr⟩ :=
    freerangeLoop_spec c id c.PHYSTOP hPG hk (le_refl _) hw fuel s (PGROUNDUP c c.kend) []
      hl0 (by simp) hr1 hr2 (by omega) hfuel0 (by omega)
  have hlist2 : IsList s'.next (s'.freelist id) l := by simpa using hlist
  refine ⟨s', l, hrun, hlist2, IsList_nodup _ _ _ hlist2, ?_, ?_⟩
  · intro p
    rw [hmem p]
    constructor
    · intro ⟨h1, h2, h3⟩
      exact ⟨h2, by omega, h3⟩
    · intro ⟨h1, h2, h3⟩
      exact ⟨hr4 p h1 h2, h1, h3⟩
  · intro k hki
    rw [hfr k hki]
    exact hempty k

/-- Claim C11. Let the page size be positive, `0 < kernelEnd ≤ physTop`, and `physTop`
at least two pages below `2 ^ 64`. When `kinit()` runs on CPU `id` from a state in
which every free list is empty, with fuel for all iterations of the loop, it returns
(no `kfree` panics); afterwards the free list of CPU `id` holds exactly the
page-aligned addresses `p` with `kernelEnd ≤ p` and `p + PGSIZE ≤ physTop`, each once,
and the free list of every other CPU is still empty. -/
theorem kinit_builds_free_list (c : Config) (fuel : Nat) (s : KState) (id : Nat)
    (hPG : 0 < c.PGSIZE) (hk : 0 < c.kend) (hle : c.kend ≤ c.PHYSTOP)
    (hw : c.PHYSTOP + 2 * c.PGSIZE ≤ U64)
    (hempty : ∀ k, s.freelist k = 0)
    (hfuel : c.PHYSTOP < c.kend + fuel * c.PGSIZE) :
    ∃ s' l, kinit c fuel s id = .ret () s' ∧
      IsList s'.next (s'.freelist id) l ∧ l.Nodup ∧
      (∀ p, p ∈ l ↔ (p % c.PGSIZE = 0 ∧ c.kend ≤ p ∧ p + c.PGSIZE ≤ c.PHYSTOP)) ∧
      (∀ k, k ≠ id → s'.freelist k = 0) :=
  kinit_lists c fuel s id hPG hk hle hw hempty hfuel

/-- Witness for claim C11: the stock memory layout, `kinit()` on CPU 0. -/
theorem kinit_builds_free_list_witness :
    ∃ s' l, kinit cfg1 40000 sEmpty 0 = .ret () s' ∧
      IsList s'.next (s'.freelist 0) l ∧ l.Nodup ∧
      (∀ p, p ∈ l ↔ (p % cfg1.PGSIZE = 0 ∧ cfg1.kend ≤ p ∧ p + cfg1.PGSIZE ≤ cfg1.PHYSTOP)) ∧
      (∀ k, k ≠ 0 → s'.freelist k = 0) :=
  kinit_builds_free_list cfg1 40000 sEmpty 0 (by decide) (by decide) (by decide) (by decide)
    (fun _ => rfl) (by decide)

/-- Claim C16. When `stealpage(id)` takes from the donor (the first CPU after `id` with
a non-empty list) whose free list is `l`, while the thief's list is empty, the thief's
new list is a non-empty prefix of `l`, the donor's new list is the remaining suffix,
and the thief's list followed by the donor's list is `l`: no page is lost, duplicated
or reordered. -/
theorem stealpage_prefix_suffix (c : Config) (fuel : Nat) (s : KState) (id j : Nat)
    (l : List Nat)
    (hid : id < c.NCPU) (h0 : s.freelist id = 0) (hj1 : 1 ≤ j) (hjN : j < c.NCPU)
    (hz : ∀ i, 1 ≤ i → i < j → s.freelist ((id + i) % c.NCPU) = 0)
    (hl : IsList s.next (s.freelist ((id + j) % c.NCPU)) l) (hne : l ≠ [])
    (hf : l.length ≤ fuel) :
    ∃ s' lt ld, stealpage c fuel s id = .ret () s' ∧
      IsList s'.next (s'.freelist id) lt ∧
      IsList s'.next (s'.freelist ((id + j) % c.NCPU)) ld ∧
      lt ≠ [] ∧ lt ++ ld = l := by
  obtain ⟨r, _, hst, ht, hd⟩ := stealpage_donor c fuel s id j l hid h0 hj1 hjN hz hl hne hf
  have hk : id ≠ (id + j) % c.NCPU := fun e => mod_shift_ne _ _ _ hid hj1 hjN e.symm
  refine ⟨_, l.take ((l.length + 1) / 2), l.drop ((l.length + 1) / 2), hst, ?_, ?_, ?_,
    List.take_append_drop _ _⟩
  · show IsList (upd s.next r 0) (upd (upd s.freelist id _) _ _ id) _
    rw [upd_other _ _ _ _ hk, upd_same]
    exact ht
  · show IsList (upd s.next r 0) (upd (upd s.freelist id _) _ _ _) _
    rw [upd_same]
    exact hd
  · intro h
    have hlen := congrArg List.length h
    have h1 : 1 ≤ l.length := by
      cases l with
      | nil => exact absurd rfl hne
      | cons a t => simp
    simp only [List.length_take, List.length_nil] at hlen
    omega

/-- Witness for claim C16: CPU 1 steals from CPU 0, which holds three pages. -/
theorem stealpage_prefix_suffix_witness :
    ∃ s' lt ld, stealpage cfg2 8 sOdd 1 = .ret () s' ∧
      IsList s'.next (s'.freelist 1) lt ∧
      IsList s'.next (s'.freelist ((1 + 1) % cfg2.NCPU)) ld ∧
      lt ≠ [] ∧ lt ++ ld = [pgA, pgB, pgC] :=
  stealpage_prefix_suffix cfg2 8 sOdd 1 1 [pgA, pgB, pgC] (by decide) (by decide) (by decide)
    (by decide) (by intro i h1 h2; omega) (by decide) (by simp) (by decide)

/-- Claim C17. For a CPU `id < NCPU`: if its own list is not empty, or no other CPU has
a non-empty list (as with `NCPU = 1`), `stealpage(id)` returns with the state
unchanged. If its list is empty and `(id + j) % NCPU` is the first CPU in the order
`id + 1, id + 2, ...` (mod `NCPU`) with a non-empty list `l`, `stealpage(id)` takes
from that CPU: the thief's head becomes the donor's old head, the head pointer of every
other CPU is unchanged, the only link that is written belongs to a page of `l`, and so
the list of every other CPU (which shares no page with `l`) is unchanged. -/
theorem stealpage_donor_choice_and_frame (c : Config) (fuel : Nat) (s : KState) (id : Nat)
    (hid : id < c.NCPU) :
    (s.freelist id ≠ 0 → stealpage c fuel s id = .ret () s) ∧
    ((∀ k, k < c.NCPU → k ≠ id → s.freelist k = 0) → stealpage c fuel s id = .ret () s) ∧
    (∀ j l, s.freelist id = 0 → 1 ≤ j → j < c.NCPU →
      (∀ i, 1 ≤ i → i < j → s.freelist ((id + i) % c.NCPU) = 0) →
      IsList s.next (s.freelist ((id + j) % c.NCPU)) l → l ≠ [] → l.length ≤ fuel →
      ∃ s', stealpage c fuel s id = .ret () s' ∧
        s'.freelist id = s.freelist ((id + j) % c.NCPU) ∧
        (∀ k, k ≠ id → k ≠ (id + j) % c.NCPU → s'.freelist k = s.freelist k) ∧
        (∀ a, a ∉ l → s'.next a = s.next a) ∧
        (∀ k l2, k ≠ id → k ≠ (id + j) % c.NCPU → IsList s.next (s.freelist k) l2 →
          (∀ x, x ∈ l2 → x ∉ l) → IsList s'.next (s'.freelist k) l2)) := by
  refine ⟨?_, fun hz => stealpage_no_donor c fuel s id hid hz, ?_⟩
  · intro h
    unfold stealpage
    rw [if_pos h]
  · intro j l h0 hj1 hjN hz hl hne hf
    obtain ⟨r, hr, hst, _, _⟩ := stealpage_donor c fuel s id j l hid h0 hj1 hjN hz hl hne hf
    have hk : id ≠ (id + j) % c.NCPU := fun e => mod_shift_ne _ _ _ hid hj1 hjN e.symm
    refine ⟨_, hst, ?_, ?_, ?_, ?_⟩
    · show upd (upd s.freelist id _) _ _ id = _
      rw [upd_other _ _ _ _ hk, upd_same]
    · intro k hki hkd
      show upd (upd s.freelist id _) _ _ k = _
      rw [upd_other _ _ _ _ hkd, upd_other _ _ _ _ hki]
    · intro a ha
      show upd s.next r 0 a = _
      exact upd_other _ _ _ _ (fun e => ha (e ▸ hr))
    · intro k l2 hki hkd hl2 hdis
      show IsList (upd s.next r 0) (upd (upd s.freelist id _) _ _ k) l2
      rw [upd_other _ _ _ _ hkd, upd_other _ _ _ _ hki]
      exact (IsList_frame s.next r 0 l2 _ (fun hm => hdis r hm hr)).mpr hl2

/-- Witness for claim C17: `stealpage(1)` with two CPUs, CPU 0 holding three pages. -/
theorem stealpage_donor_choice_and_frame_witness :
    1 < cfg2.NCPU ∧
    ∃ s', stealpage cfg2 8 sOdd 1 = .ret () s' ∧
      s'.freelist 1 = sOdd.freelist ((1 + 1) % cfg2.NCPU) ∧
      (∀ k, k ≠ 1 → k ≠ (1 + 1) % cfg2.NCPU → s'.freelist k = sOdd.freelist k) := by
  obtain ⟨s', h1, h2, h3, _⟩ :=
    (stealpage_donor_choice_and_frame cfg2 8 sOdd 1 (by decide)).2.2 1 [pgA, pgB, pgC]
      (by decide) (by decide) (by decide) (by intro i h1 h2; omega) (by decide) (by simp)
      (by decide)
  exact ⟨by decide, s', h1, h2, h3⟩

/-- The stores of `kfree` happen under the caller's own lock. -/
theorem kfree_writes_locked (c : Config) (id pa : Nat) :
    writesUnderLock [] (kfreeEvents c id pa) = true := by
  unfold kfreeEvents
  split <;> simp [writesUnderLock]

/-- Claim C19, the behaviour of the code at the failing input. With two CPUs, CPU 0
holding three free pages and CPU 1 none, `kalloc()` on CPU 1 runs `stealpage(1)`
before it takes its own lock: the store `kmem[1].freelist = kmem[0].freelist` happens
while only `kmem[0].lock` is held. -/
theorem steal_writes_thief_head_unlocked :
    kallocEvents cfg2 8 sOdd 1 =
      [.acquire 0, .wr 1, .wr 0, .release 0, .acquire 1, .wr 1, .release 1] ∧
    writesUnderLock [] (kallocEvents cfg2 8 sOdd 1) = false ∧
    writesUnderLock [] [KEv.acquire 0, KEv.wr 1] = false := by
  decide

end Kalloc

/-! ## Theorems about the buffer cache -/

namespace Bio

theorem set_same {α : Type} (f : Ptr → α) (x : Ptr) (v : α) : set f x v x = v := by
  simp [set]

theorem set_other {α : Type} (f : Ptr → α) (x : Ptr) (v : α) (y : Ptr) (h : y ≠ x) :
    set f x v y = f y := by
  simp [set, h]

/-- The search loop misses when it walks a chain without a matching buffer. -/
theorem bgetScan_miss (s : BState) (dev blockno : Nat) (head : Ptr) :
    ∀ (l : List Ptr) (fuel : Nat) (p : Ptr), Seg s.next head p l →
      (∀ x, x ∈ l → ¬(s.dev x = dev ∧ s.blockno x = blockno)) → l.length < fuel →
      bgetScan s dev blockno head fuel p = .miss := by
  intro l
  induction l with
  | nil =>
    intro fuel p hseg _ hf
    cases fuel with
    | zero => simp at hf
    | succ fuel =>
      have hp : p = head := hseg
      simp [bgetScan, hp]
  | cons a l ih =>
    intro fuel p hseg hno hf
    cases fuel with
    | zero => simp at hf
    | succ fuel =>
      obtain ⟨hpa, hah, han, hrest⟩ := hseg
      subst hpa
      have hm : ¬(s.dev p = dev ∧ s.blockno p = blockno) := hno p (by simp)
      have hrec := ih fuel (s.next p) hrest (fun x hx => hno x (by simp [hx]))
        (by simp at hf; omega)
      simp only [bgetScan, if_neg hah, if_neg han, if_neg hm]
      exact hrec

/-- A chain only depends on the links of its own members. -/
theorem Seg_congr (next next2 : Ptr → Ptr) (head : Ptr) :
    ∀ (l : List Ptr) (p : Ptr), (∀ x, x ∈ l → next2 x = next x) →
      Seg next head p l → Seg next2 head p l := by
  intro l
  induction l with
  | nil => intro p _ h; exact h
  | cons a l ih =>
    intro p hagree h
    obtain ⟨h1, h2, h3, h4⟩ := h
    refine ⟨h1, h2, h3, ?_⟩
    rw [hagree a (by simp)]
    exact ih (next a) (fun x hx => hagree x (by simp [hx])) h4

/-- The first link of a chain is never `NULL`. -/
theorem Seg_start_ne_null (next : Ptr → Ptr) (head p : Ptr) (l : List Ptr)
    (hh : head ≠ .null) (h : Seg next head p l) : p ≠ .null := by
  cases l with
  | nil =>
    have : p = head := h
    rw [this]; exact hh
  | cons a l =>
    obtain ⟨h1, _, h3, _⟩ := h
    rw [h1]; exact h3

/-- The first link of a chain is the sentinel or a member. -/
theorem Seg_start_mem (next : Ptr → Ptr) (head p : Ptr) (l : List Ptr)
    (h : Seg next head p l) : p = head ∨ p ∈ l := by
  cases l with
  | nil => exact Or.inl h
  | cons a l => exact Or.inr (by rw [h.1]; simp)

/-- The "not cached" path of `bget` when the head of the unused chain is a free
buffer `b`. -/
theorem bgetMiss_ret (s : BState) (pid dev blockno : Nat) (h b : Ptr)
    (hb : s.next .unused = b) (hbn : b ≠ .null) (hbu : b ≠ .unused)
    (hhu : h ≠ .unused) (href : s.refcnt b = 0) (hfree : s.holder b = none)
    (hY : s.next b ≠ .null) (hX : s.next h ≠ .null) :
    bgetMiss s pid dev blockno h = .ret b (missState s pid dev blockno h b) := by
  unfold bgetMiss missState
  simp only [hb, if_neg hbn, href, ne_eq, not_true_eq_false, if_false,
    set_other _ _ _ _ hbu, set_same, set_other _ _ _ _ hhu, if_neg hY, if_neg hX,
    acquiresleep, hfree]

/-- The call `bread` after a `bget` that returned a buffer without valid content. -/
theorem bread_of_bget_invalid (fuel : Nat) (s s1 : BState) (pid dev blockno : Nat) (b : Ptr)
    (h : bget fuel s pid dev blockno = .ret b s1) (hv : s1.valid b = 0) :
    bread fuel s pid dev blockno = .ret b (readState s1 b) := by
  unfold bread
  rw [h]
  simp [hv, virtio_disk_rw, readState]

/-- The call `brelse` of the last reference: the buffer moves to the head of the unused chain. -/
theorem brelse_reclaim (s : BState) (pid : Nat) (b : Ptr)
    (hbn : b ≠ .null) (hbu : b ≠ .unused) (hold : s.holder b = some pid)
    (href : s.refcnt b = 1) (hN : s.next b ≠ .null) (hP : s.prev b ≠ .null)
    (hNb : s.next b ≠ b) (hPu : s.prev b ≠ .unused) (hU : s.next .unused ≠ .null) :
    brelse s pid b = .ret () (reclaimState s b) := by
  have hbN : b ≠ s.next b := fun e => hNb e.symm
  have huP : Ptr.unused ≠ s.prev b := fun e => hPu e.symm
  have hub : Ptr.unused ≠ b := fun e => hbu e.symm
  unfold brelse reclaimState
  simp [hbn, holdingsleep, hold, releasesleep, href, U32, set_same, set_other _ _ _ _ hbN,
    set_other _ _ _ _ huP, set_other _ _ _ _ hub, hN, hP, hU]

/-- The panic "bget: no buffers" is reached only when `bcache.unused.head.next` is
`NULL`, which the circular unused chain never is after `binit`. -/
theorem bgetMiss_no_buffers_iff (s : BState) (pid dev blockno : Nat) (h : Ptr) :
    (bgetMiss s pid dev blockno h).panicMsg? = some .no_buffers ↔ s.next .unused = .null := by
  unfold bgetMiss
  by_cases h0 : s.next .unused = .null
  · simp [h0, Res.panicMsg?]
  · simp only [h0, if_false, iff_false]
    split
    · simp [Res.panicMsg?]
    · split
      · simp [Res.panicMsg?]
      · split
        · simp [Res.panicMsg?]
        · simp only [acquiresleep]
          split <;> simp [Res.panicMsg?]

/-- Claim C6. In a state where the chain of bucket `n % NBUCKETS` holds no buffer for
`(d, n)` and the unused chain is not empty, its head being a slot that is in no bucket
chain, unreferenced and unlocked: `bread(d, n)` returns that slot with valid content;
`brelse` returns; a second `bget(d, n)` returns a buffer with `valid = 0` and
`refcnt = 1`, and `bread(d, n)` in its place reads the block from the disk again. -/
theorem bget_after_full_release_is_invalid (fuel : Nat) (s : BState) (pid d n i : Nat)
    (bl ul : List Ptr)
    (hB : IsChain s (.bucket (n % NBUCKETS)) bl)
    (hmiss : ∀ x, x ∈ bl → ¬(s.dev x = d ∧ s.blockno x = n))
    (hU : IsChain s .unused (.buf i :: ul))
    (hdisj : Ptr.buf i ∉ bl)
    (href : s.refcnt (.buf i) = 0) (hfree : s.holder (.buf i) = none)
    (hfuel : bl.length < fuel) :
    ∃ s1 s2 s3 s4,
      bread fuel s pid d n = .ret (.buf i) s1 ∧ s1.valid (.buf i) = 1 ∧
      brelse s1 pid (.buf i) = .ret () s2 ∧
      bget fuel s2 pid d n = .ret (.buf i) s3 ∧
      s3.valid (.buf i) = 0 ∧ s3.refcnt (.buf i) = 1 ∧
      bread fuel s2 pid d n = .ret (.buf i) s4 ∧ s4.xfers = (false, n) :: s2.xfers := by
  obtain ⟨hUb, _, _, hUrest⟩ := hU
  have hY : s.next (.buf i) ≠ .null :=
    Seg_start_ne_null s.next .unused _ ul (by simp) hUrest
  have hX : s.next (.bucket (n % NBUCKETS)) ≠ .null :=
    Seg_start_ne_null s.next _ _ bl (by simp) hB
  have hXb : s.next (.bucket (n % NBUCKETS)) ≠ .buf i := by
    rcases Seg_start_mem s.next _ _ bl hB with h | h
    · rw [h]; simp
    · intro e; rw [e] at h; exact hdisj h
  -- first fetch
  have hscan := bgetScan_miss s d n _ bl fuel _ hB hmiss hfuel
  have hget1 : bget fuel s pid d n =
      .ret (.buf i) (missState s pid d n (.bucket (n % NBUCKETS)) (.buf i)) := by
    unfold bget
    simp only [hscan]
    exact bgetMiss_ret s pid d n _ _ hUb (by simp) (by simp) (by simp) href hfree hY hX
  have hread1 := bread_of_bget_invalid fuel s _ pid d n _ hget1 (by simp [missState, set_same])
  -- release
  have hrel := brelse_reclaim
    (readState (missState s pid d n (.bucket (n % NBUCKETS)) (.buf i)) (.buf i)) pid (.buf i)
    (by simp) (by simp) (by simp [readState, missState, set])
    (by simp [readState, missState, set]) (by simp [readState, missState, set, hX])
    (by simp [readState, missState, set]) (by simp [readState, missState, set, hXb])
    (by simp [readState, missState, set]) (by simp [readState, missState, set, hY])
  -- the links are back to what they were
  have hnext : (reclaimState
      (readState (missState s pid d n (.bucket (n % NBUCKETS)) (.buf i)) (.buf i))
      (.buf i)).next = s.next := by
    funext y
    by_cases h1 : y = .unused
    · subst h1; simp [reclaimState, readState, missState, set, hUb]
    · by_cases h2 : y = .buf i
      · subst h2; simp [reclaimState, readState, missState, set]
      · by_cases h3 : y = .bucket (n % NBUCKETS)
        · subst h3; simp [reclaimState, readState, missState, set]
        · simp [reclaimState, readState, missState, set, h1, h2, h3]
  -- second fetch
  have hB2 : Seg (reclaimState
      (readState (missState s pid d n (.bucket (n % NBUCKETS)) (.buf i)) (.buf i))
      (.buf i)).next (.bucket (n % NBUCKETS))
      ((reclaimState
      (readState (missState s pid d n (.bucket (n % NBUCKETS)) (.buf i)) (.buf i))
      (.buf i)).next (.bucket (n % NBUCKETS))) bl := by
    rw [hnext]; exact hB
  have hmiss2 : ∀ x, x ∈ bl → ¬((reclaimState
      (readState (missState s pid d n (.bucket (n % NBUCKETS)) (.buf i)) (.buf i))
      (.buf i)).dev x = d ∧ (reclaimState
      (readState (missState s pid d n (.bucket (n % NBUCKETS)) (.buf i)) (.buf i))
      (.buf i)).blockno x = n) := by
    intro x hx
    have hxb : x ≠ .buf i := fun e => hdisj (e ▸ hx)
    simpa [reclaimState, readState, missState, set, hxb] using hmiss x hx
  have hscan2 := bgetScan_miss _ d n _ bl fuel _ hB2 hmiss2 hfuel
  have hget2 : bget fuel (reclaimState
      (readState (missState s pid d n (.bucket (n % NBUCKETS)) (.buf i)) (.buf i))
      (.buf i)) pid d n =
      .ret (.buf i) (missState (reclaimState
      (readState (missState s pid d n (.bucket (n % NBUCKETS)) (.buf i)) (.buf i))
      (.buf i)) pid d n (.bucket (n % NBUCKETS)) (.buf i)) := by
    unfold bget
    simp only [hscan2]
    refine bgetMiss_ret _ pid d n _ _ ?_ (by simp) (by simp) (by simp) ?_ ?_ ?_ ?_
    · rw [hnext]; exact hUb
    · simp [reclaimState, set]
    · simp [reclaimState, set]
    · rw [hnext]; exact hY
    · rw [hnext]; exact hX
  have hread2 := bread_of_bget_invalid fuel _ _ pid d n _ hget2 (by simp [missState, set_same])
  refine ⟨_, _, _, _, hread1, ?_, hrel, hget2, ?_, ?_, hread2, ?_⟩
  · simp [readState, set_same]
  · simp [missState, set_same]
  · simp [missState, set_same]
  · simp [readState, missState, set_same, reclaimState]

/-- Claim C10. For a buffer `b` whose content lock the caller does not hold, `bwrite(b)`
and `brelse(b)` panic and the state at the panic is the state at the call (reference
counts, valid flags, chains and disk untouched). For a buffer whose content lock the
caller holds, `bwrite(b)` returns after exactly one disk transfer, a write of the
buffer's block, and changes neither the valid flags nor the lock holders nor the
reference counts nor the chains. -/
theorem bwrite_brelse_require_lock (s : BState) (pid : Nat) (b : Ptr) (hb : b ≠ .null) :
    (holdingsleep s pid b = false →
      bwrite s pid b = .panic .bwrite s ∧ brelse s pid b = .panic .brelse s) ∧
    (holdingsleep s pid b = true →
      ∃ s', bwrite s pid b = .ret () s' ∧
        s'.xfers = (true, s.blockno b) :: s.xfers ∧
        s'.disk (s.blockno b) = s.data b ∧
        (∀ m, m ≠ s.blockno b → s'.disk m = s.disk m) ∧
        s'.valid = s.valid ∧ s'.holder = s.holder ∧ s'.refcnt = s.refcnt ∧
        s'.next = s.next ∧ s'.prev = s.prev ∧ s'.dev = s.dev ∧ s'.blockno = s.blockno ∧
        s'.data = s.data) := by
  constructor
  · intro h
    exact ⟨by simp [bwrite, hb, h], by simp [brelse, hb, h]⟩
  · intro h
    refine ⟨virtio_disk_rw s b true, by simp [bwrite, hb, h], ?_⟩
    simp [virtio_disk_rw]
    intro m hm
    simp [hm]

/-- Witness for claim C6: block 5 of device 1 right after `binit()`. -/
theorem bget_after_full_release_is_invalid_witness :
    IsChain s0 (.bucket (5 % NBUCKETS)) [] ∧
    IsChain s0 .unused (.buf 29 :: ((List.range 29).reverse.map Ptr.buf)) ∧
    ∃ s1 s2 s3 s4,
      bread 64 s0 1 1 5 = .ret (.buf 29) s1 ∧ s1.valid (.buf 29) = 1 ∧
      brelse s1 1 (.buf 29) = .ret () s2 ∧
      bget 64 s2 1 1 5 = .ret (.buf 29) s3 ∧
      s3.valid (.buf 29) = 0 ∧ s3.refcnt (.buf 29) = 1 ∧
      bread 64 s2 1 1 5 = .ret (.buf 29) s4 ∧ s4.xfers = (false, 5) :: s2.xfers :=
  ⟨by decide!, by decide!,
    bget_after_full_release_is_invalid 64 s0 1 1 5 29 []
      ((List.range 29).reverse.map Ptr.buf) (by decide!) (by simp) (by decide!) (by simp)
      (by decide!) (by decide!) (by decide)⟩

/-- Witness for claim C10: the buffer of block 5, locked by process 1 after `bread`,
seen by process 1 (holder) and by process 2 (not holder). -/
theorem bwrite_brelse_require_lock_witness :
    holdingsleep (after [.bread 1 1 5]) 1 (.buf 29) = true ∧
    holdingsleep (after [.bread 1 1 5]) 2 (.buf 29) = false ∧
    (bwrite (after [.bread 1 1 5]) 2 (.buf 29)).panicMsg? = some .bwrite ∧
    (brelse (after [.bread 1 1 5]) 2 (.buf 29)).panicMsg? = some .brelse ∧
    ∃ s', bwrite (after [.bread 1 1 5]) 1 (.buf 29) = .ret () s' ∧
      s'.xfers = (true, 5) :: (after [.bread 1 1 5]).xfers := by
  have h2 := (bwrite_brelse_require_lock (after [.bread 1 1 5]) 2 (.buf 29) (by simp)).1
    (by decide!)
  obtain ⟨s', h1, hx, _⟩ :=
    (bwrite_brelse_require_lock (after [.bread 1 1 5]) 1 (.buf 29) (by simp)).2 (by decide!)
  refine ⟨by decide!, by decide!, by rw [h2.1]; rfl, by rw [h2.2]; rfl, s', h1, ?_⟩
  rw [hx]
  have : (after [.bread 1 1 5]).blockno (.buf 29) = 5 := by decide!
  rw [this]

/-- Claim C1, the behaviour of the code at the failing input. After `binit()` with
`NBUF = 30` and thirty `bread` calls for the blocks `0..29` the unused chain is empty
(`unused.head.next` is the sentinel itself) and block 30 is not cached; `bget(1, 30)`
does not panic: it returns the sentinel `bcache.unused.head` as if it were a buffer and
links it into bucket 4. -/
theorem bget_empty_unused_returns_sentinel :
    (run 64 s0 (reads 30)).isSome = true ∧
    chain 64 (after (reads 30)) .unused = [] ∧
    (after (reads 30)).next .unused = .unused ∧
    bgetScan (after (reads 30)) 1 30 (.bucket (30 % NBUCKETS)) 64
      ((after (reads 30)).next (.bucket (30 % NBUCKETS))) = .miss ∧
    (bget 64 (after (reads 30)) 1 1 30).panicMsg? = none ∧
    (bget 64 (after (reads 30)) 1 1 30).val? = some .unused ∧
    chain 64 (after (reads 30)) (.bucket 4) = [.buf 12, .buf 25] ∧
    chain 64 (after (reads 31)) (.bucket 4) = [.unused, .buf 12, .buf 25] ∧
    (after (reads 31)).refcnt .unused = 1 := by
  decide!

/-- Claim C7, the behaviour of the code at the failing input. Thirty-one `bread` calls
for the blocks `0..30` after `binit()` with `NBUF = 30` all return; afterwards the slot
`buf[12]` (block 17) is a member of two chains, bucket 4 and the unused chain, and the
slots counted over all chains are 32, not 30. -/
theorem chains_overlap_after_exhaustion :
    totalSlots 64 30 s0 = 30 ∧
    (run 64 s0 (reads 31)).isSome = true ∧
    chain 64 (after (reads 31)) .unused = [.buf 12, .buf 25, .bucket 4] ∧
    memberCount 64 (after (reads 31)) (.buf 12) = 2 ∧
    totalSlots 64 30 (after (reads 31)) = 32 := by
  decide!

/-- Claim C8, the behaviour of the code at the failing input. After thirty-one `bread`
calls for the blocks `0..30` the slot `buf[12]` has `refcnt = 1`, is held by process 1,
and is on the unused chain; the next miss finds it at the head of the unused chain and
panics with "refcnt not zero". -/
theorem referenced_buffer_on_unused_chain :
    (run 64 s0 (reads 31)).isSome = true ∧
    (after (reads 31)).refcnt (.buf 12) = 1 ∧
    (after (reads 31)).holder (.buf 12) = some 1 ∧
    Ptr.buf 12 ∈ chain 64 (after (reads 31)) .unused ∧
    Ptr.buf 12 ∈ chain 64 (after (reads 31)) (.bucket 4) ∧
    (bget 64 (after (reads 31)) 1 1 31).panicMsg? = some .refcnt_not_zero := by
  decide!

/-- Claim C9, the behaviour of the code at the failing input. After `bread(1, 5)`,
`bpin`, `brelse` and `bunpin` of the returned buffer `buf[29]` its `refcnt` is 0, but it
is still in the chain of bucket 5 and not on the unused chain, whose 29 members are the
other slots; a miss for another block takes `buf[28]`. -/
theorem unpin_to_zero_does_not_reclaim :
    (bread 64 s0 1 1 5).val? = some (.buf 29) ∧
    (run 64 s0 pinScript).isSome = true ∧
    (after pinScript).refcnt (.buf 29) = 0 ∧
    chain 64 (after pinScript) (.bucket 5) = [.buf 29] ∧
    Ptr.buf 29 ∉ chain 64 (after pinScript) .unused ∧
    (chain 64 (after pinScript) .unused).length = 29 ∧
    (bget 64 (after pinScript) 1 1 6).val? = some (.buf 28) := by
  decide!

theorem lastOf_nil (q : Ptr) : lastOf q [] = q := rfl

theorem lastOf_cons (q a : Ptr) (l : List Ptr) : lastOf q (a :: l) = lastOf a l := rfl

theorem lastOf_mem (q : Ptr) (l : List Ptr) : lastOf q l ∈ q :: l := by
  induction l generalizing q with
  | nil => simp [lastOf_nil]
  | cons a l ih =>
    rw [lastOf_cons]
    exact List.mem_cons_of_mem _ (ih a)

theorem lastOf_append_cons (q a : Ptr) (l1 l2 : List Ptr) :
    lastOf q (l1 ++ a :: l2) = lastOf a l2 := by
  induction l1 generalizing q with
  | nil => simp [lastOf_cons]
  | cons b l1 ih => simp [lastOf_cons, ih]

/-- A chain is a path from its sentinel back to its sentinel. -/
theorem Seg_iff_Path (next : Ptr → Ptr) (head : Ptr) :
    ∀ (l : List Ptr) (q : Ptr),
      Seg next head (next q) l ↔ (Path next q l head ∧ ∀ x, x ∈ l → x ≠ head ∧ x ≠ .null) := by
  intro l
  induction l with
  | nil => intro q; simp [Seg, Path]
  | cons a l ih =>
    intro q
    simp only [Seg, Path, ih a, List.mem_cons, forall_eq_or_imp]
    constructor
    · rintro ⟨h1, h2, h3, h4, h5⟩
      exact ⟨⟨h1, h4⟩, ⟨h2, h3⟩, h5⟩
    · rintro ⟨⟨h1, h4⟩, ⟨h2, h3⟩, h5⟩
      exact ⟨h1, h2, h3, h4, h5⟩

theorem IsChain_iff_Path (s : BState) (head : Ptr) (l : List Ptr) :
    IsChain s head l ↔ (Path s.next head l head ∧ ∀ x, x ∈ l → x ≠ head ∧ x ≠ .null) :=
  Seg_iff_Path s.next head l head

/-- A path can be cut at any of its nodes. -/
theorem Path_append (next : Ptr → Ptr) :
    ∀ (l1 : List Ptr) (q a e : Ptr) (l2 : List Ptr),
      Path next q (l1 ++ a :: l2) e ↔ (Path next q l1 a ∧ Path next a l2 e) := by
  intro l1
  induction l1 with
  | nil => intro q a e l2; simp [Path]
  | cons b l1 ih =>
    intro q a e l2
    show (next q = b ∧ Path next b (l1 ++ a :: l2) e) ↔
      ((next q = b ∧ Path next b l1 a) ∧ Path next a l2 e)
    rw [ih b a e l2]
    exact and_assoc.symm

/-- A path only depends on the links of its start and of its nodes. -/
theorem Path_restart (next next2 : Ptr → Ptr) :
    ∀ (l : List Ptr) (q q2 e : Ptr), next2 q2 = next q → (∀ x, x ∈ l → next2 x = next x) →
      Path next q l e → Path next2 q2 l e := by
  intro l
  induction l with
  | nil =>
    intro q q2 e h1 _ h
    simp only [Path] at h ⊢
    rw [h1]; exact h
  | cons a l ih =>
    intro q q2 e h1 h2 h
    simp only [Path] at h ⊢
    refine ⟨by rw [h1]; exact h.1, ?_⟩
    exact ih a a e (h2 a (by simp)) (fun x hx => h2 x (by simp [hx])) h.2

/-- Redirecting the link of the last node of a path changes where the path ends. -/
theorem Path_redirect (next : Ptr → Ptr) (e2 : Ptr) :
    ∀ (l : List Ptr) (q e : Ptr), (q :: l).Nodup → Path next q l e →
      Path (set next (lastOf q l) e2) q l e2 := by
  intro l
  induction l with
  | nil =>
    intro q e _ _
    simp [Path, lastOf_nil, set_same]
  | cons a l ih =>
    intro q e hnd h
    simp only [Path] at h ⊢
    rw [lastOf_cons]
    have hq : q ≠ lastOf a l := by
      intro e1
      have := lastOf_mem a l
      rw [← e1] at this
      exact (List.nodup_cons.mp hnd).1 this
    refine ⟨by rw [set_other _ _ _ _ hq]; exact h.1, ?_⟩
    exact ih a e (List.nodup_cons.mp hnd).2 h.2

/-- The back links of a list split at any point. -/
theorem Back_append (prev : Ptr → Ptr) :
    ∀ (l1 : List Ptr) (q : Ptr) (l2 : List Ptr),
      Back prev q (l1 ++ l2) ↔ (Back prev q l1 ∧ Back prev (lastOf q l1) l2) := by
  intro l1
  induction l1 with
  | nil => intro q l2; simp [Back, lastOf_nil]
  | cons a l1 ih =>
    intro q l2
    show (prev a = q ∧ Back prev a (l1 ++ l2)) ↔
      ((prev a = q ∧ Back prev a l1) ∧ Back prev (lastOf a l1) l2)
    rw [ih a l2]
    exact and_assoc.symm

/-- Back links only depend on the `prev` fields of the nodes of the list. -/
theorem Back_congr (prev prev2 : Ptr → Ptr) :
    ∀ (l : List Ptr) (q : Ptr), (∀ x, x ∈ l → prev2 x = prev x) →
      Back prev q l → Back prev2 q l := by
  intro l
  induction l with
  | nil => intro q _ _; trivial
  | cons a l ih =>
    intro q h2 h
    simp only [Back] at h ⊢
    exact ⟨by rw [h2 a (by simp)]; exact h.1, ih a (fun x hx => h2 x (by simp [hx])) h.2⟩

/-- A link determines its chain. -/
theorem Seg_unique (next : Ptr → Ptr) (head : Ptr) :
    ∀ (l1 l2 : List Ptr) (p : Ptr), Seg next head p l1 → Seg next head p l2 → l1 = l2 := by
  intro l1
  induction l1 with
  | nil =>
    intro l2 p h1 h2
    cases l2 with
    | nil => rfl
    | cons b l2 =>
      have e1 : p = head := h1
      exact absurd (h2.1.symm.trans e1) h2.2.1
  | cons a l1 ih =>
    intro l2 p h1 h2
    cases l2 with
    | nil =>
      have e2 : p = head := h2
      exact absurd (h1.1.symm.trans e2) h1.2.1
    | cons b l2 =>
      have hab : a = b := h1.1.symm.trans h2.1
      subst hab
      rw [ih l2 (next a) h1.2.2.2 h2.2.2.2]

/-- The rest of a chain after a prefix is a chain. -/
theorem Seg_suffix (next : Ptr → Ptr) (head : Ptr) :
    ∀ (l1 : List Ptr) (a : Ptr) (l2 : List Ptr) (p : Ptr),
      Seg next head p (l1 ++ a :: l2) → Seg next head a (a :: l2) := by
  intro l1
  induction l1 with
  | nil =>
    intro a l2 p h
    exact ⟨rfl, h.2.1, h.2.2.1, h.2.2.2⟩
  | cons b l1 ih =>
    intro a l2 p h
    exact ih a l2 (next b) h.2.2.2

/-- A chain never visits a node twice. -/
theorem Seg_nodup (next : Ptr → Ptr) (head : Ptr) :
    ∀ (l : List Ptr) (p : Ptr), Seg next head p l → l.Nodup := by
  intro l
  induction l with
  | nil => intro _ _; exact List.nodup_nil
  | cons a l ih =>
    intro p h
    refine List.nodup_cons.mpr ⟨?_, ih (next a) h.2.2.2⟩
    intro hmem
    obtain ⟨l1, l2, hl⟩ := List.append_of_mem hmem
    have h1 : Seg next head a (a :: l) := ⟨rfl, h.2.1, h.2.2.1, h.2.2.2⟩
    have h2 : Seg next head a (a :: l2) := by
      have h3 : Seg next head (next a) (l1 ++ a :: l2) := by rw [← hl]; exact h.2.2.2
      exact Seg_suffix next head l1 a l2 _ h3
    have := Seg_unique next head _ _ a h1 h2
    have hlen : l.length = l2.length := by
      have := congrArg List.length this
      simpa using this
    rw [hl] at hlen
    simp at hlen
    omega

/-- The sentinel and the members of a chain are pairwise different. -/
theorem IsChain_nodup (s : BState) (head : Ptr) (l : List Ptr) (h : IsChain s head l) :
    (head :: l).Nodup := by
  refine List.nodup_cons.mpr ⟨?_, Seg_nodup _ _ _ _ h⟩
  intro hm
  exact (((IsChain_iff_Path s head l).mp h).2 head hm).1 rfl

/-- The first link of a chain: the first member, or the sentinel when it is empty. -/
theorem IsChain_head (s : BState) (head : Ptr) (l : List Ptr) (h : IsChain s head l) :
    s.next head = l.headD head := by
  cases l with
  | nil => exact h
  | cons a l => exact h.1

/-- The chains after the "not cached" path of `bget`: the buffer `b` has left the head
of the unused chain and is the new head of the bucket `h`; every other chain is as it
was. -/
theorem miss_chains (s : BState) (pid dev blockno : Nat) (h b : Ptr) (bl ul : List Ptr)
    (hB : IsChain s h bl) (hU : IsChain s .unused (b :: ul))
    (hhu : h ≠ .unused) (hbh : b ≠ h) (hbbl : b ∉ bl) (hubl : Ptr.unused ∉ bl)
    (hhul : h ∉ ul) :
    IsChain (missState s pid dev blockno h b) .unused ul ∧
    IsChain (missState s pid dev blockno h b) h (b :: bl) ∧
    (∀ h2 l2, h2 ≠ h → h2 ≠ .unused → h2 ≠ b → IsChain s h2 l2 →
      b ∉ l2 → h ∉ l2 → Ptr.unused ∉ l2 →
      IsChain (missState s pid dev blockno h b) h2 l2) := by
  have hUp := (IsChain_iff_Path s .unused (b :: ul)).mp hU
  have hBp := (IsChain_iff_Path s h bl).mp hB
  have hUnd := IsChain_nodup s .unused (b :: ul) hU
  have hbu : b ≠ .unused := (hUp.2 b (by simp)).1
  have hbn : b ≠ .null := (hUp.2 b (by simp)).2
  have hbul : b ∉ ul := (List.nodup_cons.mp (List.nodup_cons.mp hUnd).2).1
  have hub : Ptr.unused ≠ b := fun e => hbu e.symm
  have huh : Ptr.unused ≠ h := fun e => hhu e.symm
  have hnext : (missState s pid dev blockno h b).next =
      set (set (set s.next .unused (s.next b)) b (s.next h)) h b := rfl
  refine ⟨?_, ?_, ?_⟩
  · rw [IsChain_iff_Path]
    refine ⟨?_, fun x hx => hUp.2 x (by simp [hx])⟩
    refine Path_restart s.next _ ul b .unused .unused ?_ ?_ hUp.1.2
    · rw [hnext, set_other _ _ _ _ huh, set_other _ _ _ _ hub, set_same]
    · intro x hx
      have hxh : x ≠ h := fun e => hhul (e ▸ hx)
      have hxb : x ≠ b := fun e => hbul (e ▸ hx)
      have hxu : x ≠ .unused := (hUp.2 x (by simp [hx])).1
      rw [hnext, set_other _ _ _ _ hxh, set_other _ _ _ _ hxb, set_other _ _ _ _ hxu]
  · rw [IsChain_iff_Path]
    refine ⟨⟨?_, ?_⟩, ?_⟩
    · rw [hnext, set_same]
    · refine Path_restart s.next _ bl h b h ?_ ?_ hBp.1
      · rw [hnext, set_other _ _ _ _ hbh, set_same]
      · intro x hx
        have hxh : x ≠ h := (hBp.2 x hx).1
        have hxb : x ≠ b := fun e => hbbl (e ▸ hx)
        have hxu : x ≠ .unused := fun e => hubl (e ▸ hx)
        rw [hnext, set_other _ _ _ _ hxh, set_other _ _ _ _ hxb, set_other _ _ _ _ hxu]
    · intro x hx
      rcases List.mem_cons.mp hx with e | hx
      · rw [e]; exact ⟨hbh, hbn⟩
      · exact hBp.2 x hx
  · intro h2 l2 h2h h2u h2b hl2 hbl2 hhl2 hul2
    have hp := (IsChain_iff_Path s h2 l2).mp hl2
    rw [IsChain_iff_Path]
    refine ⟨?_, hp.2⟩
    refine Path_restart s.next _ l2 h2 h2 h2 ?_ ?_ hp.1
    · rw [hnext, set_other _ _ _ _ h2h, set_other _ _ _ _ h2b, set_other _ _ _ _ h2u]
    · intro x hx
      have hxh : x ≠ h := fun e => hhl2 (e ▸ hx)
      have hxb : x ≠ b := fun e => hbl2 (e ▸ hx)
      have hxu : x ≠ .unused := fun e => hul2 (e ▸ hx)
      rw [hnext, set_other _ _ _ _ hxh, set_other _ _ _ _ hxb, set_other _ _ _ _ hxu]

/-- The back links after the "not cached" path of `bget`. -/
theorem miss_back (s : BState) (pid dev blockno : Nat) (h b : Ptr) (bl ul : List Ptr)
    (hB : IsChain s h bl) (hU : IsChain s .unused (b :: ul))
    (hbbl : b ∉ bl) (hubl : Ptr.unused ∉ bl)
    (hdis : ∀ x, x ∈ ul → x ∉ bl) (hback : Back s.prev h bl) :
    Back (missState s pid dev blockno h b).prev h (b :: bl) ∧
    (∀ h2 l2, Back s.prev h2 l2 → b ∉ l2 → h ∉ l2 → Ptr.unused ∉ l2 →
      (∀ x, x ∈ l2 → x ∉ bl) → (∀ x, x ∈ l2 → x ∉ ul) →
      Back (missState s pid dev blockno h b).prev h2 l2) := by
  have hprev : (missState s pid dev blockno h b).prev =
      set (set (set s.prev (s.next b) .unused) (s.next h) b) b h := rfl
  have hX := IsChain_head s h bl hB
  have hY : s.next b = ul.headD .unused := by
    cases ul with
    | nil => exact hU.2.2.2
    | cons a t => exact hU.2.2.2.1
  have hBnd := IsChain_nodup s h bl hB
  -- the successor of `b` in the unused chain is not in the bucket
  have hYbl : s.next b ∉ bl := by
    rw [hY]
    cases ul with
    | nil => exact hubl
    | cons a t => exact hdis a (by simp)
  refine ⟨⟨by rw [hprev, set_same], ?_⟩, ?_⟩
  · cases bl with
    | nil => trivial
    | cons x0 bl2 =>
      have hx0 : s.next h = x0 := by rw [hX]; rfl
      have hx0b : x0 ≠ b := fun e => hbbl (by rw [← e]; simp)
      refine ⟨by rw [hprev, set_other _ _ _ _ hx0b, hx0, set_same], ?_⟩
      refine Back_congr s.prev _ bl2 x0 ?_ hback.2
      intro x hx
      have hxb : x ≠ b := fun e => hbbl (by rw [← e]; simp [hx])
      have hxx : x ≠ s.next h := by
        rw [hx0]
        intro e
        have hnd2 := (List.nodup_cons.mp hBnd).2
        exact (List.nodup_cons.mp hnd2).1 (e ▸ hx)
      have hxy : x ≠ s.next b := fun e => hYbl (by rw [← e]; simp [hx])
      rw [hprev, set_other _ _ _ _ hxb, set_other _ _ _ _ hxx, set_other _ _ _ _ hxy]
  · intro h2 l2 hb2 hbl2 hhl2 hul2 hd1 hd2
    refine Back_congr s.prev _ l2 h2 ?_ hb2
    intro x hx
    have hxb : x ≠ b := fun e => hbl2 (e ▸ hx)
    have hxx : x ≠ s.next h := by
      rw [hX]
      intro e
      cases bl with
      | nil => exact hhl2 (by rw [← show x = h from e]; exact hx)
      | cons a t => exact hd1 x hx (by rw [show x = a from e]; simp)
    have hxy : x ≠ s.next b := by
      rw [hY]
      intro e
      cases ul with
      | nil => exact hul2 (by rw [← show x = Ptr.unused from e]; exact hx)
      | cons a t => exact hd2 x hx (by rw [show x = a from e]; simp)
    rw [hprev, set_other _ _ _ _ hxb, set_other _ _ _ _ hxx, set_other _ _ _ _ hxy]

/-- The chains after `brelse` has reclaimed the buffer `b` of the chain `h`: `b` has
left its chain, whose other members keep their order, and is the new head of the
unused chain; every other chain is as it was. -/
theorem reclaim_chains (s : BState) (h b : Ptr) (pre post ul : List Ptr)
    (hB : IsChain s h (pre ++ b :: post)) (hU : IsChain s .unused ul)
    (hprev : s.prev b = lastOf h pre) (hhu : h ≠ .unused)
    (hupp : Ptr.unused ∉ pre ++ b :: post) (hhul : h ∉ ul)
    (hdis : ∀ x, x ∈ ul → x ∉ pre ++ b :: post) :
    IsChain (reclaimState s b) h (pre ++ post) ∧
    IsChain (reclaimState s b) .unused (b :: ul) ∧
    (∀ h2 l2, h2 ≠ h → h2 ≠ .unused → h2 ∉ pre ++ b :: post → IsChain s h2 l2 →
      h ∉ l2 → Ptr.unused ∉ l2 → (∀ x, x ∈ l2 → x ∉ pre ++ b :: post) →
      IsChain (reclaimState s b) h2 l2) := by
  have hBp := (IsChain_iff_Path s h (pre ++ b :: post)).mp hB
  have hUp := (IsChain_iff_Path s .unused ul).mp hU
  have hBnd := IsChain_nodup s h (pre ++ b :: post) hB
  have hnd2 : (pre ++ b :: post).Nodup := (List.nodup_cons.mp hBnd).2
  have hbh : b ≠ h := (hBp.2 b (by simp)).1
  have hbn : b ≠ .null := (hBp.2 b (by simp)).2
  have hbu : b ≠ .unused := fun e => hupp (by rw [← e]; simp)
  have hub : Ptr.unused ≠ b := fun e => hbu e.symm
  have hbpre : b ∉ pre := by
    intro hm
    have := List.nodup_append.mp hnd2
    exact this.2.2 hm (by simp) 
  have hbpost : b ∉ post := by
    have := (List.nodup_append.mp hnd2).2.1
    exact (List.nodup_cons.mp this).1
  have hsplit := (Path_append s.next pre h b h post).mp hBp.1
  have hndpre : (h :: pre).Nodup := by
    have h1 : (h :: pre ++ b :: post).Nodup := hBnd
    have h2 : ((h :: pre) ++ b :: post).Nodup := by simpa using h1
    exact (List.nodup_append.mp h2).1
  have hPmem : lastOf h pre ∈ h :: pre := lastOf_mem h pre
  have hPb : lastOf h pre ≠ b := by
    intro e
    rcases List.mem_cons.mp hPmem with e1 | e1
    · exact hbh (e.symm.trans e1)
    · exact hbpre (e ▸ e1)
  have hPu : lastOf h pre ≠ .unused := by
    intro e
    rcases List.mem_cons.mp hPmem with e1 | e1
    · exact hhu (e1.symm.trans e)
    · exact hupp (by rw [← e]; simp [e1])
  have hPpost : lastOf h pre ∉ post := by
    intro hm
    rcases List.mem_cons.mp hPmem with e1 | e1
    · exact (hBp.2 h (by rw [← e1]; simp [hm])).1 rfl
    · exact (List.nodup_append.mp hnd2).2.2 e1 (by simp [hm])
  have hnext : (reclaimState s b).next =
      set (set (set s.next (s.prev b) (s.next b)) b (s.next .unused)) .unused b := rfl
  rw [hprev] at hnext
  -- the bucket chain without `b`, before the stores to `b` and to the unused sentinel
  have hmid : Path (set s.next (lastOf h pre) (s.next b)) h (pre ++ post) h := by
    have hred := Path_redirect s.next (s.next b) pre h b hndpre hsplit.1
    cases post with
    | nil =>
      have e : s.next b = h := hsplit.2
      rw [e] at hred ⊢
      simpa using hred
    | cons n0 post2 =>
      have e : s.next b = n0 := hsplit.2.1
      rw [e] at hred ⊢
      rw [Path_append]
      refine ⟨hred, ?_⟩
      refine Path_restart s.next _ post2 n0 n0 h ?_ ?_ hsplit.2.2
      · exact set_other _ _ _ _ (fun e2 => hPpost (by rw [← e2]; simp))
      · intro x hx
        exact set_other _ _ _ _ (fun e2 => hPpost (by rw [← e2]; simp [hx]))
  refine ⟨?_, ?_, ?_⟩
  · rw [IsChain_iff_Path]
    refine ⟨?_, fun x hx => hBp.2 x ?_⟩
    · refine Path_restart _ _ (pre ++ post) h h h ?_ ?_ hmid
      · rw [hnext, set_other _ _ _ _ hhu, set_other _ _ _ _ (fun e => hbh e.symm)]
      · intro x hx
        have hxu : x ≠ .unused := by
          intro e
          rcases List.mem_append.mp hx with h1 | h1
          · exact hupp (by rw [← e]; simp [h1])
          · exact hupp (by rw [← e]; simp [h1])
        have hxb : x ≠ b := by
          intro e
          rcases List.mem_append.mp hx with h1 | h1
          · exact hbpre (e ▸ h1)
          · exact hbpost (e ▸ h1)
        rw [hnext, set_other _ _ _ _ hxu, set_other _ _ _ _ hxb]
    · rcases List.mem_append.mp hx with h1 | h1
      · simp [h1]
      · simp [h1]
  · rw [IsChain_iff_Path]
    refine ⟨⟨by rw [hnext, set_same], ?_⟩, ?_⟩
    · refine Path_restart s.next _ ul .unused b .unused ?_ ?_ hUp.1
      · rw [hnext, set_other _ _ _ _ hbu, set_same]
      · intro x hx
        have hxu : x ≠ .unused := (hUp.2 x hx).1
        have hxb : x ≠ b := fun e => hdis x hx (by rw [e]; simp)
        have hxP : x ≠ lastOf h pre := by
          intro e
          rcases List.mem_cons.mp hPmem with e1 | e1
          · exact hhul (by rw [← e1, ← e]; exact hx)
          · exact hdis x hx (by rw [e]; simp [e1])
        rw [hnext, set_other _ _ _ _ hxu, set_other _ _ _ _ hxb, set_other _ _ _ _ hxP]
    · intro x hx
      rcases List.mem_cons.mp hx with e | hx
      · rw [e]; exact ⟨hbu, hbn⟩
      · exact hUp.2 x hx
  · intro h2 l2 h2h h2u h2m hl2 hhl2 hul2 hd2
    have hp := (IsChain_iff_Path s h2 l2).mp hl2
    rw [IsChain_iff_Path]
    refine ⟨?_, hp.2⟩
    have key : ∀ x, x ≠ .unused → x ≠ h → x ∉ pre ++ b :: post →
        (reclaimState s b).next x = s.next x := by
      intro x hxu hxh hxm
      have hxb : x ≠ b := fun e => hxm (by rw [e]; simp)
      have hxP : x ≠ lastOf h pre := by
        intro e
        rcases List.mem_cons.mp hPmem with e1 | e1
        · exact hxh (e.trans e1)
        · exact hxm (by rw [e]; simp [e1])
      rw [hnext, set_other _ _ _ _ hxu, set_other _ _ _ _ hxb, set_other _ _ _ _ hxP]
    refine Path_restart s.next _ l2 h2 h2 h2 (key h2 h2u h2h h2m) ?_ hp.1
    intro x hx
    exact key x (fun e => hul2 (e ▸ hx)) (fun e => hhl2 (e ▸ hx)) (hd2 x hx)

/-- The back links after `brelse` has reclaimed the buffer `b` of the chain `h`. -/
theorem reclaim_back (s : BState) (h b : Ptr) (pre post ul : List Ptr)
    (hB : IsChain s h (pre ++ b :: post)) (hU : IsChain s .unused ul)
    (hupp : Ptr.unused ∉ pre ++ b :: post)
    (hdis : ∀ x, x ∈ ul → x ∉ pre ++ b :: post)
    (hback : Back s.prev h (pre ++ b :: post)) :
    Back (reclaimState s b).prev h (pre ++ post) ∧
    (∀ h2 l2, Back s.prev h2 l2 → h ∉ l2 → Ptr.unused ∉ l2 →
      (∀ x, x ∈ l2 → x ∉ pre ++ b :: post) → (∀ x, x ∈ l2 → x ∉ ul) →
      Back (reclaimState s b).prev h2 l2) := by
  have hBp := (IsChain_iff_Path s h (pre ++ b :: post)).mp hB
  have hBnd := IsChain_nodup s h (pre ++ b :: post) hB
  have hnd2 : (pre ++ b :: post).Nodup := (List.nodup_cons.mp hBnd).2
  have hsplit := (Path_append s.next pre h b h post).mp hBp.1
  have hbk := (Back_append s.prev pre h (b :: post)).mp hback
  have hprev : s.prev b = lastOf h pre := hbk.2.1
  have hN : s.next b = post.headD h := by
    cases post with
    | nil => exact hsplit.2
    | cons a t => exact hsplit.2.1
  have hUo := IsChain_head s .unused ul hU
  have hpv : (reclaimState s b).prev =
      set (set (set s.prev (s.next b) (s.prev b)) b .unused) (s.next .unused) b := rfl
  -- nodes whose back link is not written
  have key : ∀ x, x ≠ b → x ≠ s.next b → x ≠ s.next .unused →
      (reclaimState s b).prev x = s.prev x := by
    intro x h1 h2 h3
    rw [hpv, set_other _ _ _ _ h3, set_other _ _ _ _ h1, set_other _ _ _ _ h2]
  have hUoB : ∀ x, x ∈ pre ++ b :: post → x ≠ s.next .unused := by
    intro x hx e
    rw [hUo] at e
    cases ul with
    | nil => exact hupp (by rw [← show x = Ptr.unused from e]; exact hx)
    | cons a t => exact hdis a (by simp) (by rw [← show x = a from e]; exact hx)
  have hbpre : b ∉ pre := fun hm => (List.nodup_append.mp hnd2).2.2 hm (by simp)
  have hbpost : b ∉ post :=
    (List.nodup_cons.mp (List.nodup_append.mp hnd2).2.1).1
  refine ⟨?_, ?_⟩
  · rw [Back_append]
    refine ⟨?_, ?_⟩
    · refine Back_congr s.prev _ pre h ?_ hbk.1
      intro x hx
      refine key x (fun e => hbpre (e ▸ hx)) ?_ (hUoB x (by simp [hx]))
      rw [hN]
      intro e
      cases post with
      | nil => exact (hBp.2 x (by simp [hx])).1 e
      | cons a t =>
        exact (List.nodup_append.mp hnd2).2.2 hx (by rw [show x = a from e]; simp)
    · cases post with
      | nil => trivial
      | cons n0 post2 =>
        have hn0 : s.next b = n0 := hsplit.2.1
        have hn0b : n0 ≠ b := fun e => hbpost (by rw [← e]; simp)
        have hn0u : n0 ≠ s.next .unused := hUoB n0 (by simp)
        refine ⟨?_, ?_⟩
        · rw [hpv, set_other _ _ _ _ hn0u, set_other _ _ _ _ hn0b, hn0, set_same, hprev]
        · refine Back_congr s.prev _ post2 n0 ?_ hbk.2.2.2
          intro x hx
          refine key x (fun e => hbpost (by rw [← e]; simp [hx])) ?_
            (hUoB x (by simp [hx]))
          rw [hn0]
          intro e
          have hnd3 := (List.nodup_append.mp hnd2).2.1
          have hnd4 := (List.nodup_cons.mp hnd3).2
          exact (List.nodup_cons.mp hnd4).1 (e ▸ hx)
  · intro h2 l2 hb2 hhl2 hul2 hd1 hd2
    refine Back_congr s.prev _ l2 h2 ?_ hb2
    intro x hx
    refine key x (fun e => hd1 x hx (by rw [e]; simp)) ?_ ?_
    · rw [hN]
      intro e
      cases post with
      | nil => exact hhl2 (by rw [← show x = h from e]; exact hx)
      | cons a t => exact hd1 x hx (by rw [show x = a from e]; simp)
    · rw [hUo]
      intro e
      cases ul with
      | nil => exact hul2 (by rw [← show x = Ptr.unused from e]; exact hx)
      | cons a t => exact hd2 x hx (by rw [show x = a from e]; simp)

/-- What the search loop of `bget` can answer on a chain: with too little fuel `loops`,
otherwise `miss` when no member matches, or `hit b` for a matching member `b`; never a
`NULL` dereference. -/
theorem bgetScan_on_chain (s : BState) (dev blockno : Nat) (head : Ptr) :
    ∀ (l : List Ptr) (fuel : Nat) (p : Ptr), Seg s.next head p l →
      bgetScan s dev blockno head fuel p = .loops ∨
      (bgetScan s dev blockno head fuel p = .miss ∧
        ∀ x, x ∈ l → ¬(s.dev x = dev ∧ s.blockno x = blockno)) ∨
      (∃ b, b ∈ l ∧ bgetScan s dev blockno head fuel p = .hit b ∧
        s.dev b = dev ∧ s.blockno b = blockno) := by
  intro l
  induction l with
  | nil =>
    intro fuel p hseg
    cases fuel with
    | zero => left; rfl
    | succ fuel =>
      have hp : p = head := hseg
      right; left
      exact ⟨by simp [bgetScan, hp], by simp⟩
  | cons a l ih =>
    intro fuel p hseg
    cases fuel with
    | zero => left; rfl
    | succ fuel =>
      obtain ⟨hpa, hah, han, hrest⟩ := hseg
      subst hpa
      by_cases hm : s.dev p = dev ∧ s.blockno p = blockno
      · right; right
        exact ⟨p, by simp, by simp only [bgetScan, if_neg hah, if_neg han, if_pos hm], hm⟩
      · have e : bgetScan s dev blockno head (fuel + 1) p =
            bgetScan s dev blockno head fuel (s.next p) := by
          simp only [bgetScan, if_neg hah, if_neg han, if_neg hm]
        rw [e]
        rcases ih fuel (s.next p) hrest with h1 | ⟨h1, h2⟩ | ⟨b, h1, h2, h3⟩
        · left; exact h1
        · right; left
          refine ⟨h1, ?_⟩
          intro x hx
          rcases List.mem_cons.mp hx with e1 | e1
          · rw [e1]; exact hm
          · exact h2 x e1
        · right; right
          exact ⟨b, by simp [h1], h2, h3⟩

/-- The search loop of `bget` finds the first matching member of a chain. -/
theorem bgetScan_hit (s : BState) (dev blockno : Nat) (head b : Ptr) :
    ∀ (pre : List Ptr) (post : List Ptr) (fuel : Nat) (p : Ptr),
      Seg s.next head p (pre ++ b :: post) →
      (∀ x, x ∈ pre → ¬(s.dev x = dev ∧ s.blockno x = blockno)) →
      (s.dev b = dev ∧ s.blockno b = blockno) → pre.length < fuel →
      bgetScan s dev blockno head fuel p = .hit b := by
  intro pre
  induction pre with
  | nil =>
    intro post fuel p hseg _ hm hf
    cases fuel with
    | zero => simp at hf
    | succ fuel =>
      obtain ⟨hpa, hah, han, _⟩ := hseg
      subst hpa
      simp only [bgetScan, if_neg hah, if_neg han, if_pos hm]
  | cons a pre ih =>
    intro post fuel p hseg hno hm hf
    cases fuel with
    | zero => simp at hf
    | succ fuel =>
      obtain ⟨hpa, hah, han, hrest⟩ := hseg
      subst hpa
      have hnm : ¬(s.dev p = dev ∧ s.blockno p = blockno) := hno p (by simp)
      simp only [bgetScan, if_neg hah, if_neg han, if_neg hnm]
      exact ih post fuel (s.next p) hrest (fun x hx => hno x (by simp [hx])) hm
        (by simp at hf; omega)

/-- Closed form of `bget` when the search finds `b` and its content lock is free. -/
theorem bget_hit_ret (fuel : Nat) (s : BState) (pid dev blockno : Nat) (b : Ptr)
    (hscan : bgetScan s dev blockno (.bucket (blockno % NBUCKETS)) fuel
      (s.next (.bucket (blockno % NBUCKETS))) = .hit b)
    (hfree : s.holder b = none) :
    bget fuel s pid dev blockno = .ret b
      { s with refcnt := set s.refcnt b ((s.refcnt b + 1) % U32),
               holder := set s.holder b (some pid) } := by
  unfold bget
  simp only [hscan, acquiresleep, hfree]

/-- Closed form of `bget` when the search finds nothing. -/
theorem bget_miss_eq (fuel : Nat) (s : BState) (pid dev blockno : Nat)
    (hscan : bgetScan s dev blockno (.bucket (blockno % NBUCKETS)) fuel
      (s.next (.bucket (blockno % NBUCKETS))) = .miss) :
    bget fuel s pid dev blockno = bgetMiss s pid dev blockno (.bucket (blockno % NBUCKETS)) := by
  unfold bget
  simp only [hscan]

theorem AllSlots_ne_unused (l : List Ptr) (h : AllSlots l) : Ptr.unused ∉ l := by
  intro hm
  obtain ⟨i, hi⟩ := h _ hm
  exact Ptr.noConfusion hi

theorem AllSlots_ne_bucket (l : List Ptr) (j : Nat) (h : AllSlots l) : Ptr.bucket j ∉ l := by
  intro hm
  obtain ⟨i, hi⟩ := h _ hm
  exact Ptr.noConfusion hi

/-- Closed form of `brelse` when other references remain. -/
theorem brelse_keep (s : BState) (pid : Nat) (b : Ptr)
    (hbn : b ≠ .null) (hold : s.holder b = some pid)
    (hr1 : 2 ≤ s.refcnt b) (hr2 : s.refcnt b < U32) :
    brelse s pid b = .ret ()
      { s with holder := set s.holder b none,
               refcnt := set s.refcnt b (s.refcnt b - 1) } := by
  have e : (s.refcnt b + U32 - 1) % U32 = s.refcnt b - 1 := by
    unfold U32 at hr2 ⊢
    omega
  have hne : s.refcnt b - 1 ≠ 0 := by omega
  unfold brelse
  simp [hbn, holdingsleep, hold, releasesleep, set_same, e, hne]

/-- A search never returns a buffer that is not in the chain it walks. -/
theorem bgetScan_hit_mem (s : BState) (dev blockno fuel : Nat) (head b : Ptr) (l : List Ptr)
    (hl : IsChain s head l)
    (h : bgetScan s dev blockno head fuel (s.next head) = .hit b) : b ∈ l := by
  rcases bgetScan_on_chain s dev blockno head l fuel _ hl with h1 | ⟨h1, _⟩ | ⟨b2, h1, h2, _⟩
  · rw [h] at h1; simp at h1
  · rw [h] at h1; simp at h1
  · rw [h] at h2
    injection h2 with e
    rw [e]
    exact h1

/-- Claim C14. Let `b` be a slot whose content lock the caller holds, with a reference
count that fits `uint`. If the count is at least 2, `brelse(b)` returns with the
count one lower, the lock released and nothing else changed (no chain changes). If the
count is 1 and `b` is in the chain `pre ++ b :: post` of a bucket, with its back link
on its predecessor, and the unused chain is `ul` (slots, none of them in that bucket),
`brelse(b)` returns with count 0: the bucket chain is `pre ++ post`, the unused chain
is `b :: ul`, stamps, valid flags and contents are unchanged, every other bucket chain
is as it was, no search of a chain without `b` finds `b`, and the next miss takes `b`
from the head of the unused chain. -/
theorem brelse_decrements_and_reclaims (s : BState) (pid i : Nat)
    (hold : s.holder (.buf i) = some pid) (hr2 : s.refcnt (.buf i) < U32) :
    (2 ≤ s.refcnt (.buf i) →
      ∃ s', brelse s pid (.buf i) = .ret () s' ∧
        s'.refcnt (.buf i) = s.refcnt (.buf i) - 1 ∧ s'.holder (.buf i) = none ∧
        (∀ x, x ≠ .buf i → s'.refcnt x = s.refcnt x ∧ s'.holder x = s.holder x) ∧
        s'.next = s.next ∧ s'.prev = s.prev ∧ s'.dev = s.dev ∧ s'.blockno = s.blockno ∧
        s'.valid = s.valid ∧ s'.data = s.data ∧ s'.disk = s.disk ∧ s'.xfers = s.xfers) ∧
    (s.refcnt (.buf i) = 1 →
      ∀ k pre post ul, IsChain s (.bucket k) (pre ++ .buf i :: post) →
        AllSlots (pre ++ .buf i :: post) → s.prev (.buf i) = lastOf (.bucket k) pre →
        IsChain s .unused ul → AllSlots ul →
        (∀ x, x ∈ ul → x ∉ pre ++ .buf i :: post) →
        ∃ s', brelse s pid (.buf i) = .ret () s' ∧
          s'.refcnt (.buf i) = 0 ∧ s'.holder (.buf i) = none ∧
          IsChain s' (.bucket k) (pre ++ post) ∧ IsChain s' .unused (.buf i :: ul) ∧
          s'.dev = s.dev ∧ s'.blockno = s.blockno ∧ s'.valid = s.valid ∧
          s'.data = s.data ∧ s'.disk = s.disk ∧ s'.xfers = s.xfers ∧
          (∀ x, x ≠ .buf i → s'.refcnt x = s.refcnt x ∧ s'.holder x = s.holder x) ∧
          (∀ j l2, j ≠ k → IsChain s (.bucket j) l2 → AllSlots l2 →
            (∀ x, x ∈ l2 → x ∉ pre ++ .buf i :: post) → IsChain s' (.bucket j) l2) ∧
          (∀ j l2 fuel d n, IsChain s' (.bucket j) l2 → Ptr.buf i ∉ l2 →
            bgetScan s' d n (.bucket j) fuel (s'.next (.bucket j)) ≠ .hit (.buf i)) ∧
          s'.next .unused = .buf i ∧
          (∀ j l2 pid2 d n, IsChain s' (.bucket j) l2 →
            bgetMiss s' pid2 d n (.bucket j) =
              .ret (.buf i) (missState s' pid2 d n (.bucket j) (.buf i)))) := by
  constructor
  · intro h2
    refine ⟨_, brelse_keep s pid (.buf i) (by simp) hold h2 hr2, ?_, ?_, ?_, rfl, rfl, rfl,
      rfl, rfl, rfl, rfl, rfl⟩
    · show set s.refcnt _ _ _ = _
      rw [set_same]
    · show set s.holder _ _ _ = _
      rw [set_same]
    · intro x hx
      exact ⟨set_other _ _ _ _ hx, set_other _ _ _ _ hx⟩
  · intro h1 k pre post ul hB hBs hprev hU hUs hdis
    have hBp := (IsChain_iff_Path s (.bucket k) (pre ++ .buf i :: post)).mp hB
    have hBnd := IsChain_nodup s (.bucket k) (pre ++ .buf i :: post) hB
    have hnd2 : (pre ++ Ptr.buf i :: post).Nodup := (List.nodup_cons.mp hBnd).2
    have hsplit := (Path_append s.next pre (.bucket k) (.buf i) (.bucket k) post).mp hBp.1
    have hN : s.next (.buf i) = post.headD (.bucket k) := by
      cases post with
      | nil => exact hsplit.2
      | cons a t => exact hsplit.2.1
    have hNn : s.next (.buf i) ≠ .null := by
      rw [hN]
      cases post with
      | nil => simp
      | cons a t => exact (hBp.2 a (by simp)).2
    have hNb : s.next (.buf i) ≠ .buf i := by
      rw [hN]
      cases post with
      | nil => simp
      | cons a t =>
        intro e
        have hnd3 := (List.nodup_append.mp hnd2).2.1
        exact (List.nodup_cons.mp hnd3).1 (by rw [← show a = Ptr.buf i from e]; simp)
    have hPmem : lastOf (.bucket k) pre ∈ Ptr.bucket k :: pre := lastOf_mem _ _
    have hPn : s.prev (.buf i) ≠ .null := by
      rw [hprev]
      rcases List.mem_cons.mp hPmem with e | e
      · rw [e]; simp
      · exact (hBp.2 _ (by simp [e])).2
    have hPu : s.prev (.buf i) ≠ .unused := by
      rw [hprev]
      rcases List.mem_cons.mp hPmem with e | e
      · rw [e]; simp
      · intro e2
        exact AllSlots_ne_unused _ hBs (by rw [← e2]; simp [e])
    have hUo : s.next .unused ≠ .null := Seg_start_ne_null s.next .unused _ ul (by simp) hU
    have hrel := brelse_reclaim s pid (.buf i) (by simp) (by simp) hold h1 hNn hPn hNb hPu hUo
    obtain ⟨c1, c2, c3⟩ := reclaim_chains s (.bucket k) (.buf i) pre post ul hB hU hprev
      (by simp) (AllSlots_ne_unused _ hBs) (AllSlots_ne_bucket ul k hUs) hdis
    have hnextU : (reclaimState s (.buf i)).next .unused = .buf i := by
      simp [reclaimState, set_same]
    refine ⟨_, hrel, ?_, ?_, c1, c2, rfl, rfl, rfl, rfl, rfl, rfl, ?_, ?_, ?_, hnextU, ?_⟩
    · simp [reclaimState, set_same]
    · simp [reclaimState, set_same]
    · intro x hx
      simp [reclaimState, set_other _ _ _ _ hx]
    · intro j l2 hj hl2 hs2 hd2
      exact c3 (.bucket j) l2 (by simp [hj]) (by simp) (AllSlots_ne_bucket _ j hBs) hl2
        (AllSlots_ne_bucket l2 k hs2) (AllSlots_ne_unused l2 hs2) hd2
    · intro j l2 fuel d n hl2 hb2 hhit
      exact hb2 (bgetScan_hit_mem _ d n fuel _ _ l2 hl2 hhit)
    · intro j l2 pid2 d n hl2
      refine bgetMiss_ret _ pid2 d n (.bucket j) (.buf i) hnextU (by simp) (by simp) (by simp)
        (by simp [reclaimState, set_same]) (by simp [reclaimState, set_same]) ?_ ?_
      · have : (reclaimState s (.buf i)).next (.buf i) = s.next .unused := by
          simp [reclaimState, set]
        rw [this]; exact hUo
      · exact Seg_start_ne_null _ _ _ l2 (by simp) hl2

theorem AllSlots_map_buf (l : List Nat) : AllSlots (l.map Ptr.buf) := by
  intro x hx
  obtain ⟨i, _, hi⟩ := List.mem_map.mp hx
  exact ⟨i, hi.symm⟩

theorem AllSlots_cons (i : Nat) (l : List Ptr) (h : AllSlots l) : AllSlots (Ptr.buf i :: l) := by
  intro x hx
  rcases List.mem_cons.mp hx with e | e
  · exact ⟨i, e⟩
  · exact h x e

/-- Witness for claim C14: `brelse` of the only reference to the buffer of block 5. -/
theorem brelse_decrements_and_reclaims_witness :
    (after [.bread 1 1 5]).holder (.buf 29) = some 1 ∧
    (after [.bread 1 1 5]).refcnt (.buf 29) = 1 ∧
    ∃ s', brelse (after [.bread 1 1 5]) 1 (.buf 29) = .ret () s' ∧
      s'.refcnt (.buf 29) = 0 ∧
      IsChain s' (.bucket 5) [] ∧
      IsChain s' .unused (.buf 29 :: (List.range 29).reverse.map Ptr.buf) := by
  obtain ⟨s', h1, h2, _, h3, h4, _⟩ :=
    (brelse_decrements_and_reclaims (after [.bread 1 1 5]) 1 29 (by decide!) (by decide!)).2
      (by decide!) 5 [] [] ((List.range 29).reverse.map Ptr.buf) (by decide!)
      (AllSlots_cons 29 _ (by intro x hx; simp at hx)) (by decide!) (by decide!)
      (AllSlots_map_buf _) (by decide)
  exact ⟨by decide!, by decide!, s', h1, h2, h3, h4⟩

/-- The first loop of `binit` makes every bucket it visits an empty ring and touches
nothing else that matters. -/
theorem binitBucket_fold :
    ∀ (l : List Nat) (s : BState),
      (l.foldl binitBucket s).holder = s.holder ∧
      (l.foldl binitBucket s).refcnt = s.refcnt ∧
      (∀ i, i ∈ l → (l.foldl binitBucket s).next (.bucket i) = .bucket i) ∧
      (∀ x, (∀ i, i ∈ l → x ≠ .bucket i) → (l.foldl binitBucket s).next x = s.next x) := by
  intro l
  induction l with
  | nil => intro s; simp
  | cons a l ih =>
    intro s
    obtain ⟨h1, h2, h3, h4⟩ := ih (binitBucket s a)
    simp only [List.foldl_cons]
    refine ⟨by rw [h1]; rfl, by rw [h2]; rfl, ?_, ?_⟩
    · intro i hi
      by_cases hil : i ∈ l
      · exact h3 i hil
      · have hia : i = a := by
          rcases List.mem_cons.mp hi with e | e
          · exact e
          · exact absurd e hil
        subst hia
        rw [h4 (.bucket i) (fun j hj e => hil (by injection e with e2; rw [e2]; exact hj))]
        simp [binitBucket, set_same]
    · intro x hx
      rw [h4 x (fun i hi => hx i (by simp [hi]))]
      have hxa : x ≠ .bucket a := hx a (by simp)
      simp [binitBucket, set_other _ _ _ _ hxa]

/-- The second loop of `binit` after `k` slots: the buckets are empty rings, the
unused chain holds slots below `k`, no content lock is held and no buffer is
referenced. -/
theorem binitBuf_fold (s : BState)
    (hb : ∀ i, i < NBUCKETS → s.next (.bucket i) = .bucket i)
    (hu : s.next .unused = .unused) (hh : ∀ x, s.holder x = none)
    (hr : ∀ x, s.refcnt x = 0) :
    ∀ k, (∀ i, i < NBUCKETS →
          ((List.range k).foldl binitBuf s).next (.bucket i) = .bucket i) ∧
        (∃ ul, IsChain ((List.range k).foldl binitBuf s) .unused ul ∧
          ∀ x, x ∈ ul → ∃ j, j < k ∧ x = Ptr.buf j) ∧
        (∀ x, ((List.range k).foldl binitBuf s).holder x = none) ∧
        (∀ x, ((List.range k).foldl binitBuf s).refcnt x = 0) := by
  intro k
  induction k with
  | zero =>
    simp only [List.range_zero, List.foldl_nil]
    exact ⟨hb, ⟨[], hu, by simp⟩, hh, hr⟩
  | succ k ih =>
    obtain ⟨h1, ⟨ul, h2, h3⟩, h4, h5⟩ := ih
    rw [List.range_succ, List.foldl_append]
    simp only [List.foldl_cons, List.foldl_nil]
    generalize (List.range k).foldl binitBuf s = t at h1 h2 h3 h4 h5
    have hnext : (binitBuf t k).next =
        set (set t.next (.buf k) (t.next .unused)) .unused (.buf k) := rfl
    have hp := (IsChain_iff_Path t .unused ul).mp h2
    have hkul : Ptr.buf k ∉ ul := by
      intro hm
      obtain ⟨j, hj, e⟩ := h3 _ hm
      injection e with e2
      omega
    refine ⟨?_, ⟨Ptr.buf k :: ul, ?_, ?_⟩, ?_, fun x => h5 x⟩
    · intro i hi
      have e1 : Ptr.bucket i ≠ Ptr.unused := by simp
      have e2 : Ptr.bucket i ≠ Ptr.buf k := by simp
      rw [hnext, set_other _ _ _ _ e1, set_other _ _ _ _ e2]
      exact h1 i hi
    · rw [IsChain_iff_Path]
      refine ⟨⟨by rw [hnext, set_same], ?_⟩, ?_⟩
      · refine Path_restart t.next _ ul .unused (.buf k) .unused ?_ ?_ hp.1
        · have e1 : Ptr.buf k ≠ Ptr.unused := by simp
          rw [hnext, set_other _ _ _ _ e1, set_same]
        · intro x hx
          have hxu : x ≠ .unused := (hp.2 x hx).1
          have hxk : x ≠ .buf k := fun e => hkul (e ▸ hx)
          rw [hnext, set_other _ _ _ _ hxu, set_other _ _ _ _ hxk]
      · intro x hx
        rcases List.mem_cons.mp hx with e | e
        · rw [e]; simp
        · exact hp.2 x e
    · intro x hx
      rcases List.mem_cons.mp hx with e | e
      · exact ⟨k, by omega, e⟩
      · obtain ⟨j, hj, e2⟩ := h3 x e
        exact ⟨j, by omega, e2⟩
    · intro x
      show set t.holder (.buf k) none x = none
      by_cases hx : x = .buf k
      · rw [hx, set_same]
      · rw [set_other _ _ _ _ hx]; exact h4 x

/-- The invariant holds after `binit()`, whatever the size of the pool. -/
theorem BInv_binit (NBUF : Nat) (disk : Nat → Nat) : BInv (binit NBUF (boot disk)) := by
  obtain ⟨f1, f2, f3, f4⟩ := binitBucket_fold (List.range NBUCKETS) (boot disk)
  have hfold := binitBuf_fold
    { (List.range NBUCKETS).foldl binitBucket (boot disk) with
      prev := set ((List.range NBUCKETS).foldl binitBucket (boot disk)).prev .unused .unused,
      next := set ((List.range NBUCKETS).foldl binitBucket (boot disk)).next .unused .unused }
    (by
      intro i hi
      have hne : Ptr.bucket i ≠ Ptr.unused := by simp
      show set ((List.range NBUCKETS).foldl binitBucket (boot disk)).next Ptr.unused
        Ptr.unused (Ptr.bucket i) = Ptr.bucket i
      rw [set_other _ _ _ _ hne]
      exact f3 i (List.mem_range.mpr hi))
    (by
      show set ((List.range NBUCKETS).foldl binitBucket (boot disk)).next Ptr.unused
        Ptr.unused Ptr.unused = Ptr.unused
      rw [set_same])
    (by intro x; show ((List.range NBUCKETS).foldl binitBucket (boot disk)).holder x = none
        rw [f1]; rfl)
    (by intro x; show ((List.range NBUCKETS).foldl binitBucket (boot disk)).refcnt x = 0
        rw [f2]; rfl)
    NBUF
  obtain ⟨h1, ⟨ul, h2, h3⟩, h4, h5⟩ := hfold
  refine ⟨fun _ => [], ul, ?_, h2, ?_, ?_, ?_, ?_, ?_, ?_⟩
  · intro i hi
    exact ⟨h1 i hi, trivial, by intro x hx; simp at hx⟩
  · intro x hx
    obtain ⟨j, _, e⟩ := h3 x hx
    exact ⟨j, e⟩
  · intro i j _ _ _ x hx; simp at hx
  · intro i _ x hx; simp at hx
  · intro i _ x hx; simp at hx
  · intro x hx
    exact absurd (h4 x) hx
  · intro x
    show (binit NBUF (boot disk)).refcnt x < U32
    have : (binit NBUF (boot disk)).refcnt x = 0 := h5 x
    rw [this]
    decide

theorem IsChain_congr_next (s s2 : BState) (head : Ptr) (l : List Ptr)
    (h : s2.next = s.next) : IsChain s2 head l ↔ IsChain s head l := by
  unfold IsChain
  rw [h]

/-- The invariant only looks at the links, the valid flags, the lock holders and the
range of the reference counts. -/
theorem BInv_same_links (s s2 : BState) (hn : s2.next = s.next) (hp : s2.prev = s.prev)
    (hv : s2.valid = s.valid) (hr : ∀ x, s2.refcnt x < U32)
    (hh : ∀ x, s2.holder x ≠ none →
      s.holder x ≠ none ∨ ∃ l i, i < NBUCKETS ∧ IsChain s (.bucket i) l ∧ x ∈ l)
    (hinv : BInv s) : BInv s2 := by
  obtain ⟨L, ul, h1, h2, h3, h4, h5, h6, h7, _⟩ := hinv
  refine ⟨L, ul, ?_, (IsChain_congr_next s s2 _ _ hn).mpr h2, h3, h4, h5, ?_, ?_, hr⟩
  · intro i hi
    obtain ⟨a, b, c⟩ := h1 i hi
    exact ⟨(IsChain_congr_next s s2 _ _ hn).mpr a, by rw [hp]; exact b, c⟩
  · intro i hi x hx
    rw [hv]
    exact h6 i hi x hx
  · intro x hx
    rcases hh x hx with h | ⟨l, i, hi, hl, hxl⟩
    · exact h7 x h
    · have := Seg_unique _ _ _ _ _ hl (h1 i hi).1
      exact ⟨i, hi, by rw [← this]; exact hxl⟩

/-- The invariant is kept by `bpin`. -/
theorem BInv_bpin (s s1 : BState) (b : Ptr) (hinv : BInv s)
    (hret : bpin s b = .ret () s1) : BInv s1 := by
  unfold bpin at hret
  by_cases hb : b = .null
  · rw [if_pos hb] at hret; simp at hret
  · rw [if_neg hb] at hret
    injection hret with _ hs
    subst hs
    refine BInv_same_links s _ rfl rfl rfl ?_ (fun x hx => Or.inl hx) hinv
    intro x
    obtain ⟨_, _, _, _, _, _, _, _, _, hr⟩ := hinv
    show set s.refcnt b _ x < U32
    by_cases hx : x = b
    · rw [hx, set_same]; exact Nat.mod_lt _ (by decide)
    · rw [set_other _ _ _ _ hx]; exact hr x

/-- The invariant is kept by `bunpin`. -/
theorem BInv_bunpin (s s1 : BState) (b : Ptr) (hinv : BInv s)
    (hret : bunpin s b = .ret () s1) : BInv s1 := by
  unfold bunpin at hret
  by_cases hb : b = .null
  · rw [if_pos hb] at hret; simp at hret
  · rw [if_neg hb] at hret
    injection hret with _ hs
    subst hs
    refine BInv_same_links s _ rfl rfl rfl ?_ (fun x hx => Or.inl hx) hinv
    intro x
    obtain ⟨_, _, _, _, _, _, _, _, _, hr⟩ := hinv
    show set s.refcnt b _ x < U32
    by_cases hx : x = b
    · rw [hx, set_same]; exact Nat.mod_lt _ (by decide)
    · rw [set_other _ _ _ _ hx]; exact hr x

/-- Closed form of `brelse` when the decremented count is not zero. -/
theorem brelse_noreclaim (s : BState) (pid : Nat) (b : Ptr)
    (hbn : b ≠ .null) (hold : s.holder b = some pid)
    (hne : (s.refcnt b + U32 - 1) % U32 ≠ 0) :
    brelse s pid b = .ret ()
      { s with holder := set s.holder b none,
               refcnt := set s.refcnt b ((s.refcnt b + U32 - 1) % U32) } := by
  unfold brelse
  simp [hbn, holdingsleep, hold, releasesleep, set_same, hne]

/-- A `brelse` that returns was called by the holder of the content lock. -/
theorem brelse_ret_holder (s s1 : BState) (pid : Nat) (b : Ptr)
    (hret : brelse s pid b = .ret () s1) : b ≠ .null ∧ s.holder b = some pid := by
  unfold brelse at hret
  by_cases hb : b = .null
  · rw [if_pos hb] at hret; simp at hret
  · rw [if_neg hb] at hret
    by_cases hh : holdingsleep s pid b = false
    · rw [if_pos hh] at hret; simp at hret
    · refine ⟨hb, ?_⟩
      simp [holdingsleep] at hh
      exact hh

/-- The invariant is kept by a `brelse` that returns. -/
theorem BInv_brelse (s s1 : BState) (pid : Nat) (b : Ptr) (hinv : BInv s)
    (hret : brelse s pid b = .ret () s1) : BInv s1 := by
  obtain ⟨hbn, hold⟩ := brelse_ret_holder s s1 pid b hret
  by_cases hz : (s.refcnt b + U32 - 1) % U32 = 0
  · -- the last reference: the buffer is reclaimed
    obtain ⟨L, ul, h1, h2, h3, h4, h5, h6, h7, h8⟩ := hinv
    have href : s.refcnt b = 1 := by
      have := h8 b
      unfold U32 at this hz
      omega
    obtain ⟨i, hi, hbi⟩ := h7 b (by rw [hold]; simp)
    obtain ⟨pre, post, hsplit⟩ := List.append_of_mem hbi
    obtain ⟨hB, hBack, hBs⟩ := h1 i hi
    rw [hsplit] at hB hBack hBs
    obtain ⟨k, hk⟩ := hBs b (by simp)
    have hprev : s.prev b = lastOf (.bucket i) pre :=
      ((Back_append s.prev pre (.bucket i) (b :: post)).mp hBack).2.1
    have hdis : ∀ x, x ∈ ul → x ∉ pre ++ b :: post := by
      intro x hx hx2
      rw [← hsplit] at hx2
      exact h5 i hi x hx2 hx
    have hbu : b ≠ .unused := by rw [hk]; simp
    have hBp := (IsChain_iff_Path s (.bucket i) (pre ++ b :: post)).mp hB
    have hBnd := IsChain_nodup s (.bucket i) (pre ++ b :: post) hB
    have hnd2 : (pre ++ b :: post).Nodup := (List.nodup_cons.mp hBnd).2
    have hsp := (Path_append s.next pre (.bucket i) b (.bucket i) post).mp hBp.1
    have hN : s.next b = post.headD (.bucket i) := by
      cases post with
      | nil => exact hsp.2
      | cons a t => exact hsp.2.1
    have hNn : s.next b ≠ .null := by
      rw [hN]
      cases post with
      | nil => simp
      | cons a t => exact (hBp.2 a (by simp)).2
    have hNb : s.next b ≠ b := by
      rw [hN]
      cases post with
      | nil => rw [hk]; simp
      | cons a t =>
        intro e
        have hnd3 := (List.nodup_append.mp hnd2).2.1
        exact (List.nodup_cons.mp hnd3).1 (by rw [← show a = b from e]; simp)
    have hPmem : lastOf (.bucket i) pre ∈ Ptr.bucket i :: pre := lastOf_mem _ _
    have hPn : s.prev b ≠ .null := by
      rw [hprev]
      rcases List.mem_cons.mp hPmem with e | e
      · rw [e]; simp
      · exact (hBp.2 _ (by simp [e])).2
    have hPu : s.prev b ≠ .unused := by
      rw [hprev]
      rcases List.mem_cons.mp hPmem with e | e
      · rw [e]; simp
      · intro e2
        exact AllSlots_ne_unused _ hBs (by rw [← e2]; simp [e])
    have hUo : s.next .unused ≠ .null := Seg_start_ne_null s.next .unused _ ul (by simp) h2
    have hrel := brelse_reclaim s pid b hbn hbu hold href hNn hPn hNb hPu hUo
    rw [hrel] at hret
    injection hret with _ hs
    subst hs
    obtain ⟨c1, c2, c3⟩ := reclaim_chains s (.bucket i) b pre post ul hB h2 hprev
      (by simp) (AllSlots_ne_unused _ hBs) (AllSlots_ne_bucket ul i h3) hdis
    obtain ⟨k1, k2⟩ := reclaim_back s (.bucket i) b pre post ul hB h2
      (AllSlots_ne_unused _ hBs) hdis hBack
    have hbpre : b ∉ pre := fun hm => (List.nodup_append.mp hnd2).2.2 hm (by simp)
    have hbpost : b ∉ post := (List.nodup_cons.mp (List.nodup_append.mp hnd2).2.1).1
    have hsub : ∀ x, x ∈ pre ++ post → x ∈ L i := by
      intro x hx
      rw [hsplit]
      rcases List.mem_append.mp hx with e | e
      · simp [e]
      · simp [e]
    have hmemL : ∀ j x, x ∈ (if j = i then pre ++ post else L j) → x ∈ L j := by
      intro j x hx
      by_cases hj : j = i
      · rw [if_pos hj] at hx; rw [hj]; exact hsub x hx
      · rw [if_neg hj] at hx; exact hx
    have hbnot : ∀ j, j < NBUCKETS → b ∉ (if j = i then pre ++ post else L j) := by
      intro j hj hx
      by_cases hji : j = i
      · rw [if_pos hji] at hx
        rcases List.mem_append.mp hx with e | e
        · exact hbpre e
        · exact hbpost e
      · rw [if_neg hji] at hx
        exact h4 j i hj hi hji b hx hbi
    refine ⟨fun j => if j = i then pre ++ post else L j, b :: ul, ?_, c2, ?_, ?_, ?_, ?_, ?_, ?_⟩
    · intro j hj
      by_cases hji : j = i
      · subst hji
        simp only [if_true]
        exact ⟨c1, k1, fun x hx => hBs x (by
          rcases List.mem_append.mp hx with e | e
          · simp [e]
          · simp [e])⟩
      · simp only [if_neg hji]
        obtain ⟨a1, a2, a3⟩ := h1 j hj
        have hdj : ∀ x, x ∈ L j → x ∉ pre ++ b :: post := by
          intro x hx hx2
          rw [← hsplit] at hx2
          exact h4 j i hj hi hji x hx hx2
        refine ⟨?_, ?_, a3⟩
        · exact c3 (.bucket j) (L j) (by simp [hji]) (by simp) (AllSlots_ne_bucket _ j hBs) a1
            (AllSlots_ne_bucket _ i a3) (AllSlots_ne_unused _ a3) hdj
        · exact k2 (.bucket j) (L j) a2 (AllSlots_ne_bucket _ i a3) (AllSlots_ne_unused _ a3)
            hdj (fun x hx => h5 j hj x hx)
    · rw [hk]
      exact AllSlots_cons k ul h3
    · intro j j2 hj hj2 hjj x hx hx2
      exact h4 j j2 hj hj2 hjj x (hmemL j x hx) (hmemL j2 x hx2)
    · intro j hj x hx hx2
      rcases List.mem_cons.mp hx2 with e | e
      · exact hbnot j hj (e ▸ hx)
      · exact h5 j hj x (hmemL j x hx) e
    · intro j hj x hx
      exact h6 j hj x (hmemL j x hx)
    · intro x hx
      have hxb : x ≠ b := by
        intro e
        apply hx
        show set s.holder b none x = none
        rw [e, set_same]
      have hx2 : s.holder x ≠ none := by
        intro e
        apply hx
        show set s.holder b none x = none
        rw [set_other _ _ _ _ hxb]; exact e
      obtain ⟨j, hj, hxj⟩ := h7 x hx2
      refine ⟨j, hj, ?_⟩
      show x ∈ (if j = i then pre ++ post else L j)
      by_cases hji : j = i
      · rw [if_pos hji]
        rw [hji, hsplit] at hxj
        rcases List.mem_append.mp hxj with e | e
        · simp [e]
        · rcases List.mem_cons.mp e with e2 | e2
          · exact absurd e2 hxb
          · simp [e2]
      · rw [if_neg hji]; exact hxj
    · intro x
      show set s.refcnt b 0 x < U32
      by_cases hx : x = b
      · rw [hx, set_same]; decide
      · rw [set_other _ _ _ _ hx]; exact h8 x
  · rw [brelse_noreclaim s pid b hbn hold hz] at hret
    injection hret with _ hs
    subst hs
    refine BInv_same_links s _ rfl rfl rfl ?_ ?_ hinv
    · intro x
      obtain ⟨_, _, _, _, _, _, _, _, _, hr⟩ := hinv
      show set s.refcnt b _ x < U32
      by_cases hx : x = b
      · rw [hx, set_same]; exact Nat.mod_lt _ (by decide)
      · rw [set_other _ _ _ _ hx]; exact hr x
    · intro x hx
      left
      intro e
      apply hx
      show set s.holder b none x = none
      by_cases hxb : x = b
      · rw [hxb, set_same]
      · rw [set_other _ _ _ _ hxb]; exact e

/-- Closed form of the "not cached" path of `bget` when the head of the unused chain is
referenced. -/
theorem bgetMiss_panic (s : BState) (pid dev blockno : Nat) (h b : Ptr)
    (hb : s.next .unused = b) (hbn : b ≠ .null) (href : s.refcnt b ≠ 0) :
    bgetMiss s pid dev blockno h = .panic .refcnt_not_zero s := by
  unfold bgetMiss
  simp only [hb, if_neg hbn, ne_eq, href, not_false_eq_true, if_true]

/-- Every outcome of `bread` in a state whose target bucket is a chain of valid buffers
and whose unused chain is a chain of unlocked slots. -/
theorem bread_outcome (fuel : Nat) (s : BState) (pid d n : Nat) (bl ul : List Ptr)
    (hB : IsChain s (.bucket (n % NBUCKETS)) bl) (hv : ∀ x, x ∈ bl → s.valid x = 1)
    (hU : IsChain s .unused ul) (hUs : AllSlots ul)
    (hUh : ∀ x, x ∈ ul → s.holder x = none) :
    (bread fuel s pid d n = .loops ∧ fuel ≤ bl.length) ∨
    (∃ b0, b0 ∈ bl ∧ (s.dev b0 = d ∧ s.blockno b0 = n) ∧
      ((s.holder b0 = none ∧
          bget fuel s pid d n = .ret b0
            { s with refcnt := set s.refcnt b0 ((s.refcnt b0 + 1) % U32),
                     holder := set s.holder b0 (some pid) } ∧
          bread fuel s pid d n = .ret b0
            { s with refcnt := set s.refcnt b0 ((s.refcnt b0 + 1) % U32),
                     holder := set s.holder b0 (some pid) }) ∨
       (s.holder b0 ≠ none ∧ ∃ s1, bread fuel s pid d n = .blocked s1))) ∨
    ((∀ x, x ∈ bl → ¬(s.dev x = d ∧ s.blockno x = n)) ∧
      ((ExhaustedMiss fuel s d n ∧ ul = []) ∨
       ∃ b ul2, ul = b :: ul2 ∧
         ((s.refcnt b ≠ 0 ∧ bread fuel s pid d n = .panic .refcnt_not_zero s) ∨
          (s.refcnt b = 0 ∧
            bget fuel s pid d n = .ret b (missState s pid d n (.bucket (n % NBUCKETS)) b) ∧
            bread fuel s pid d n =
              .ret b (readState (missState s pid d n (.bucket (n % NBUCKETS)) b) b))))) := by
  rcases bgetScan_on_chain s d n _ bl fuel _ hB with h1 | ⟨h1, h2⟩ | ⟨b0, h1, h2, h3⟩
  · left
    refine ⟨by unfold bread bget; simp only [h1], ?_⟩
    by_contra hcon
    have := bgetScan_on_chain s d n _ bl fuel _ hB
    rcases this with a | ⟨a, b⟩ | ⟨b0, a, b, c⟩
    · rcases Nat.lt_or_ge bl.length fuel with hlt | hge
      · -- with enough fuel the search ends
        by_cases hm : ∀ x, x ∈ bl → ¬(s.dev x = d ∧ s.blockno x = n)
        · rw [bgetScan_miss s d n _ bl fuel _ hB hm hlt] at a
          simp at a
        · push_neg at hm
          obtain ⟨x, hx, hxm⟩ := hm
          -- take the first matching member
          have hex : ∃ pre b post, bl = pre ++ b :: post ∧
              (∀ y, y ∈ pre → ¬(s.dev y = d ∧ s.blockno y = n)) ∧
              (s.dev b = d ∧ s.blockno b = n) := by
            clear a h1 hlt hcon hB hv
            induction bl with
            | nil => simp at hx
            | cons c t ih =>
              by_cases hc : s.dev c = d ∧ s.blockno c = n
              · exact ⟨[], c, t, rfl, by simp, hc⟩
              · have hxt : x ∈ t := by
                  rcases List.mem_cons.mp hx with e | e
                  · exact absurd (e ▸ hxm) hc
                  · exact e
                obtain ⟨pre, b, post, e1, e2, e3⟩ := ih hxt
                refine ⟨c :: pre, b, post, by rw [e1]; rfl, ?_, e3⟩
                intro y hy
                rcases List.mem_cons.mp hy with e | e
                · rw [e]; exact hc
                · exact e2 y e
          obtain ⟨pre, b, post, e1, e2, e3⟩ := hex
          have hlen : pre.length < fuel := by
            rw [e1] at hlt
            simp at hlt
            omega
          rw [bgetScan_hit s d n _ b pre post fuel _ (by rw [← e1]; exact hB) e2 e3 hlen] at a
          simp at a
      · exact hcon hge
    · rw [h1] at a; simp at a
    · rw [h1] at b; simp at b
  · right; right
    refine ⟨h2, ?_⟩
    cases ul with
    | nil =>
      left
      exact ⟨⟨h1, hU⟩, rfl⟩
    | cons b ul2 =>
      right
      refine ⟨b, ul2, rfl, ?_⟩
      obtain ⟨k, hk⟩ := hUs b (by simp)
      have hb1 : b ≠ .null := by rw [hk]; simp
      have hb2 : b ≠ .unused := by rw [hk]; simp
      by_cases href : s.refcnt b = 0
      · right
        have hY : s.next b ≠ .null :=
          Seg_start_ne_null s.next .unused _ ul2 (by simp) hU.2.2.2
        have hX : s.next (.bucket (n % NBUCKETS)) ≠ .null :=
          Seg_start_ne_null s.next _ _ bl (by simp) hB
        have hget : bget fuel s pid d n =
            .ret b (missState s pid d n (.bucket (n % NBUCKETS)) b) := by
          rw [bget_miss_eq fuel s pid d n h1]
          exact bgetMiss_ret s pid d n _ b hU.1 hb1 hb2 (by simp) href
            (hUh b (by simp)) hY hX
        exact ⟨href, hget,
          bread_of_bget_invalid fuel s _ pid d n b hget (by simp [missState, set_same])⟩
      · left
        refine ⟨href, ?_⟩
        unfold bread
        rw [bget_miss_eq fuel s pid d n h1, bgetMiss_panic s pid d n _ b hU.1 hb1 href]
  · right; left
    refine ⟨b0, h1, h3, ?_⟩
    by_cases hfree : s.holder b0 = none
    · left
      have hget := bget_hit_ret fuel s pid d n b0 h2 hfree
      refine ⟨hfree, hget, ?_⟩
      unfold bread
      rw [hget]
      have hval : s.valid b0 = 1 := hv b0 h1
      simp [hval]
    · right
      refine ⟨hfree, { s with refcnt := set s.refcnt b0 ((s.refcnt b0 + 1) % U32) }, ?_⟩
      cases hh : s.holder b0 with
      | none => exact absurd hh hfree
      | some p =>
        unfold bread bget
        simp only [h2, acquiresleep, hh]

/-- In a state that satisfies the invariant no slot of the unused chain is locked. -/
theorem BInv_unused_unlocked (s : BState) (L : Nat → List Ptr) (ul : List Ptr)
    (h5 : ∀ i, i < NBUCKETS → ∀ x, x ∈ L i → x ∉ ul)
    (h7 : ∀ x, s.holder x ≠ none → ∃ i, i < NBUCKETS ∧ x ∈ L i) :
    ∀ x, x ∈ ul → s.holder x = none := by
  intro x hx
  by_contra hcon
  obtain ⟨i, hi, hxi⟩ := h7 x hcon
  exact h5 i hi x hxi hx

/-- The invariant is kept by a `bread` that returns and is not a miss on an empty
unused chain. -/
theorem BInv_bread (fuel : Nat) (s s1 : BState) (pid d n : Nat) (b : Ptr) (hinv : BInv s)
    (hret : bread fuel s pid d n = .ret b s1) (hne : ¬ ExhaustedMiss fuel s d n) :
    BInv s1 := by
  have hinv0 := hinv
  obtain ⟨L, ul, h1, h2, h3, h4, h5, h6, h7, h8⟩ := hinv
  have hh : n % NBUCKETS < NBUCKETS := Nat.mod_lt _ (by decide)
  obtain ⟨hB, hBack, hBs⟩ := h1 _ hh
  have hUh := BInv_unused_unlocked s L ul h5 h7
  rcases bread_outcome fuel s pid d n (L (n % NBUCKETS)) ul hB (h6 _ hh) h2 h3 hUh with
    ⟨a, _⟩ | ⟨b0, hb0, _, ⟨hfree, _, hrd⟩ | ⟨_, s2, hrd⟩⟩ | ⟨_, ⟨hex, _⟩ | ⟨b1, ul2, hul, ⟨_, hrd⟩ | ⟨href, _, hrd⟩⟩⟩
  · rw [a] at hret; simp at hret
  · rw [hrd] at hret
    injection hret with hb hs
    subst hs
    refine BInv_same_links s _ rfl rfl rfl ?_ ?_ hinv0
    · intro x
      show set s.refcnt b0 _ x < U32
      by_cases hx : x = b0
      · rw [hx, set_same]; exact Nat.mod_lt _ (by decide)
      · rw [set_other _ _ _ _ hx]; exact h8 x
    · intro x hx
      by_cases hxb : x = b0
      · right
        exact ⟨L (n % NBUCKETS), n % NBUCKETS, hh, hB, by rw [hxb]; exact hb0⟩
      · left
        intro e
        apply hx
        show set s.holder b0 _ x = none
        rw [set_other _ _ _ _ hxb]; exact e
  · rw [hrd] at hret; simp at hret
  · exact absurd hex hne
  · rw [hrd] at hret; simp at hret
  · rw [hrd] at hret
    injection hret with hb hs
    subst hs
    rw [hul] at h2 h3 h5
    obtain ⟨k, hk⟩ := h3 b1 (by simp)
    have hul2 : AllSlots ul2 := fun x hx => h3 x (by simp [hx])
    have hb1L : ∀ j, j < NBUCKETS → b1 ∉ L j := fun j hj hm => h5 j hj b1 hm (by simp)
    have hb1h : b1 ≠ .bucket (n % NBUCKETS) := by rw [hk]; simp
    obtain ⟨c1, c2, c3⟩ := miss_chains s pid d n (.bucket (n % NBUCKETS)) b1
      (L (n % NBUCKETS)) ul2 hB h2 (by simp) hb1h (hb1L _ hh)
      (AllSlots_ne_unused _ hBs) (AllSlots_ne_bucket ul2 _ hul2)
    obtain ⟨k1, k2⟩ := miss_back s pid d n (.bucket (n % NBUCKETS)) b1
      (L (n % NBUCKETS)) ul2 hB h2 (hb1L _ hh) (AllSlots_ne_unused _ hBs)
      (fun x hx hx2 => h5 _ hh x hx2 (by simp [hx])) hBack
    have hUnd := IsChain_nodup s .unused (b1 :: ul2) h2
    have hb1ul : b1 ∉ ul2 := (List.nodup_cons.mp (List.nodup_cons.mp hUnd).2).1
    have hmemL : ∀ j x, x ∈ (if j = n % NBUCKETS then b1 :: L (n % NBUCKETS) else L j) →
        x = b1 ∨ x ∈ L j := by
      intro j x hx
      by_cases hj : j = n % NBUCKETS
      · rw [if_pos hj] at hx
        rcases List.mem_cons.mp hx with e | e
        · exact Or.inl e
        · right; rw [hj]; exact e
      · rw [if_neg hj] at hx; exact Or.inr hx
    refine ⟨fun j => if j = n % NBUCKETS then b1 :: L (n % NBUCKETS) else L j, ul2,
      ?_, c1, hul2, ?_, ?_, ?_, ?_, ?_⟩
    · intro j hj
      by_cases hji : j = n % NBUCKETS
      · subst hji
        simp only [if_true]
        refine ⟨c2, k1, ?_⟩
        rw [hk]
        exact AllSlots_cons k _ hBs
      · simp only [if_neg hji]
        obtain ⟨a1, a2, a3⟩ := h1 j hj
        refine ⟨?_, ?_, a3⟩
        · exact c3 (.bucket j) (L j) (by simp [hji]) (by simp) (by rw [hk]; simp) a1
            (hb1L j hj) (AllSlots_ne_bucket _ _ a3) (AllSlots_ne_unused _ a3)
        · exact k2 (.bucket j) (L j) a2 (hb1L j hj) (AllSlots_ne_bucket _ _ a3)
            (AllSlots_ne_unused _ a3) (fun x hx => h4 j _ hj hh hji x hx)
            (fun x hx hx2 => h5 j hj x hx (by simp [hx2]))
    · intro j j2 hj hj2 hjj x hx hx2
      have hx' : x ∈ (if j = n % NBUCKETS then b1 :: L (n % NBUCKETS) else L j) := hx
      have hx2' : x ∈ (if j2 = n % NBUCKETS then b1 :: L (n % NBUCKETS) else L j2) := hx2
      by_cases a : j = n % NBUCKETS
      · have b : j2 ≠ n % NBUCKETS := fun e => hjj (a.trans e.symm)
        rw [if_pos a] at hx'
        rw [if_neg b] at hx2'
        rcases List.mem_cons.mp hx' with e | e
        · exact hb1L j2 hj2 (e ▸ hx2')
        · exact h4 _ j2 hh hj2 (fun e2 => b e2.symm) x e hx2'
      · rw [if_neg a] at hx'
        by_cases b : j2 = n % NBUCKETS
        · rw [if_pos b] at hx2'
          rcases List.mem_cons.mp hx2' with e | e
          · exact hb1L j hj (e ▸ hx')
          · exact h4 j _ hj hh a x hx' e
        · rw [if_neg b] at hx2'
          exact h4 j j2 hj hj2 hjj x hx' hx2'
    · intro j hj x hx hx2
      rcases hmemL j x hx with e | e
      · exact hb1ul (e ▸ hx2)
      · exact h5 j hj x e (by simp [hx2])
    · intro j hj x hx
      show set (set s.valid b1 0) b1 1 x = 1
      by_cases hxb : x = b1
      · rw [hxb, set_same]
      · rw [set_other _ _ _ _ hxb, set_other _ _ _ _ hxb]
        rcases hmemL j x hx with e | e
        · exact absurd e hxb
        · exact h6 j hj x e
    · intro x hx
      by_cases hxb : x = b1
      · refine ⟨n % NBUCKETS, hh, ?_⟩
        show x ∈ (if n % NBUCKETS = n % NBUCKETS then b1 :: L (n % NBUCKETS) else _)
        rw [if_pos rfl, hxb]
        simp
      · have hx2 : s.holder x ≠ none := by
          intro e
          apply hx
          show set s.holder b1 (some pid) x = none
          rw [set_other _ _ _ _ hxb]; exact e
        obtain ⟨j, hj, hxj⟩ := h7 x hx2
        refine ⟨j, hj, ?_⟩
        show x ∈ (if j = n % NBUCKETS then b1 :: L (n % NBUCKETS) else L j)
        by_cases hji : j = n % NBUCKETS
        · rw [if_pos hji, ← hji]; simp [hxj]
        · rw [if_neg hji]; exact hxj
    · intro x
      show set s.refcnt b1 1 x < U32
      by_cases hx : x = b1
      · rw [hx, set_same]; decide
      · rw [set_other _ _ _ _ hx]; exact h8 x

/-- Every reachable state of the buffer cache satisfies the invariant. -/
theorem BReach_BInv (NBUF : Nat) (s : BState) (h : BReach NBUF s) : BInv s := by
  induction h with
  | init disk => exact BInv_binit NBUF disk
  | bread fuel s s1 pid dev blockno b _ hret hne ih =>
    exact BInv_bread fuel s s1 pid dev blockno b ih hret hne
  | brelse s s1 pid b _ hret ih => exact BInv_brelse s s1 pid b ih hret
  | bpin s s1 b _ hret ih => exact BInv_bpin s s1 b ih hret
  | bunpin s s1 b _ hret ih => exact BInv_bunpin s s1 b ih hret

/-- Claim C15 (as amended). In every state reachable from `binit()` by `bread`,
`brelse`, `bpin` and `bunpin` calls that return, none of them a miss on an empty
unused chain, a `bread(d, n)` that is not such a miss either returns, or sleeps on a
content lock that is held, or panics with "refcnt not zero" (with fuel above the length
of the bucket chain it never loops and never dereferences `NULL`). When it returns
buffer `b`: `b` is stamped `(d, n)`, valid, and locked by the caller; the buffer that
`bget` returned was invalid exactly when no buffer for `(d, n)` was in the chain of
bucket `n % NBUCKETS`; in that case exactly one disk read of block `n` is done and
`refcnt` is 1; otherwise `b` was in the chain, no disk transfer is done, and `refcnt`
is the old count plus one modulo `2 ^ 32`. -/
theorem bread_on_reachable (NBUF fuel : Nat) (s : BState) (pid d n : Nat)
    (hreach : BReach NBUF s) (hne : ¬ ExhaustedMiss fuel s d n) :
    ∃ bl, IsChain s (.bucket (n % NBUCKETS)) bl ∧
      (bl.length < fuel →
        (∃ b s', bread fuel s pid d n = .ret b s') ∨
        (∃ s1, bread fuel s pid d n = .blocked s1) ∨
        bread fuel s pid d n = .panic .refcnt_not_zero s) ∧
      (∀ b s', bread fuel s pid d n = .ret b s' →
        s'.dev b = d ∧ s'.blockno b = n ∧ s'.valid b = 1 ∧ s'.holder b = some pid ∧
        ∃ s1, bget fuel s pid d n = .ret b s1 ∧
          (s1.valid b = 0 ↔ ∀ x, x ∈ bl → ¬(s.dev x = d ∧ s.blockno x = n)) ∧
          (s1.valid b = 0 → s'.xfers = (false, n) :: s.xfers ∧ s'.refcnt b = 1) ∧
          (s1.valid b ≠ 0 → b ∈ bl ∧ s'.xfers = s.xfers ∧
            s'.refcnt b = (s.refcnt b + 1) % U32 ∧
            (s.refcnt b + 1 < U32 → s'.refcnt b = s.refcnt b + 1))) := by
  obtain ⟨L, ul, h1, h2, h3, h4, h5, h6, h7, h8⟩ := BReach_BInv NBUF s hreach
  have hh : n % NBUCKETS < NBUCKETS := Nat.mod_lt _ (by decide)
  obtain ⟨hB, _, _⟩ := h1 _ hh
  have hUh := BInv_unused_unlocked s L ul h5 h7
  refine ⟨L (n % NBUCKETS), hB, ?_⟩
  rcases bread_outcome fuel s pid d n (L (n % NBUCKETS)) ul hB (h6 _ hh) h2 h3 hUh with
    ⟨a, hf⟩ | ⟨b0, hb0, hm, ⟨hfree, hget, hrd⟩ | ⟨_, s2, hrd⟩⟩ | ⟨hno, ⟨hex, _⟩ | ⟨b1, ul2, hul, ⟨_, hrd⟩ | ⟨href, hget, hrd⟩⟩⟩
  · refine ⟨fun hlt => absurd hf (by omega), ?_⟩
    intro b s' hret
    rw [a] at hret; simp at hret
  · refine ⟨fun _ => Or.inl ⟨_, _, hrd⟩, ?_⟩
    intro b s' hret
    rw [hrd] at hret
    injection hret with hb hs
    subst hb hs
    have hval : s.valid b0 = 1 := h6 _ hh b0 hb0
    refine ⟨hm.1, hm.2, hval, ?_, _, hget, ?_, ?_, ?_⟩
    · show set s.holder b0 _ b0 = _
      rw [set_same]
    · show s.valid b0 = 0 ↔ _
      rw [hval]
      constructor
      · intro h; simp at h
      · intro h; exact absurd hm (h b0 hb0)
    · intro h
      have : s.valid b0 = 0 := h
      rw [hval] at this; simp at this
    · intro _
      refine ⟨hb0, rfl, ?_, ?_⟩
      · show set s.refcnt b0 _ b0 = _
        rw [set_same]
      · intro hlt
        show set s.refcnt b0 _ b0 = _
        rw [set_same, Nat.mod_eq_of_lt hlt]
  · refine ⟨fun _ => Or.inr (Or.inl ⟨s2, hrd⟩), ?_⟩
    intro b s' hret
    rw [hrd] at hret; simp at hret
  · exact absurd hex hne
  · refine ⟨fun _ => Or.inr (Or.inr hrd), ?_⟩
    intro b s' hret
    rw [hrd] at hret; simp at hret
  · refine ⟨fun _ => Or.inl ⟨_, _, hrd⟩, ?_⟩
    intro b s' hret
    rw [hrd] at hret
    injection hret with hb hs
    subst hb hs
    refine ⟨?_, ?_, ?_, ?_, _, hget, ?_, ?_, ?_⟩
    · simp [readState, missState, set_same]
    · simp [readState, missState, set_same]
    · simp [readState, missState, set_same]
    · simp [readState, missState, set_same]
    · constructor
      · intro _; exact hno
      · intro _; simp [missState, set_same]
    · intro _
      simp [readState, missState, set_same]
    · intro h
      exact absurd (by simp [missState, set_same]) h

/-- Witness for claim C15: the first `bread(1, 5)` after `binit()`. -/
theorem bread_on_reachable_witness :
    ¬ ExhaustedMiss 64 s0 1 5 ∧
    ∃ bl, IsChain s0 (.bucket (5 % NBUCKETS)) bl ∧
      (bl.length < 64 →
        (∃ b s', bread 64 s0 1 1 5 = .ret b s') ∨
        (∃ s1, bread 64 s0 1 1 5 = .blocked s1) ∨
        bread 64 s0 1 1 5 = .panic .refcnt_not_zero s0) := by
  obtain ⟨bl, h1, h2, _⟩ :=
    bread_on_reachable 30 64 s0 1 1 5 (BReach.init zeroDisk) (by decide!)
  exact ⟨by decide!, bl, h1, h2⟩

/-- Counterexample to claim C15 as stated: after `bread(1, 5)`, `bpin`, `brelse` and two
`bunpin` calls on the buffer (all of them return) its `refcnt` has wrapped to
`2 ^ 32 - 1`; the next `bread(1, 5)` finds it, returns it, and its `refcnt` is 0, not
at least 1. -/
theorem bread_after_double_unpin_returns_refcnt_zero :
    (run 64 s0 unpinTwice).isSome = true ∧
    (after unpinTwice).refcnt (.buf 29) = 4294967295 ∧
    (bread 64 (after unpinTwice) 1 1 5).val? = some (.buf 29) ∧
    ((bread 64 (after unpinTwice) 1 1 5).state?.map (fun t => t.refcnt (.buf 29))) = some 0 := by
  decide!

/-- Claim C18. The lock events of every call of `bget`, `brelse`, `bpin` and `bunpin`,
from a start with no lock of the buffer cache held, respect the lock order: the
unused-chain lock is acquired only while a bucket lock is held, no bucket lock is
acquired while the unused-chain lock is held, and the content lock is acquired only
when neither a bucket lock nor the unused-chain lock is held. -/
theorem lock_order_respected (fuel : Nat) (s : BState) (pid dev blockno : Nat) (b : Ptr) :
    lockOrderOk 0 false (bgetEvents fuel s pid dev blockno) = true ∧
    lockOrderOk 0 false (brelseEvents s pid b) = true ∧
    lockOrderOk 0 false (bpinEvents s b) = true ∧
    lockOrderOk 0 false (bunpinEvents s b) = true := by
  refine ⟨?_, ?_, ?_, ?_⟩
  · unfold bgetEvents
    simp only
    split
    · simp [lockOrderOk]
    · simp [lockOrderOk]
    · simp [lockOrderOk]
    · split <;> simp [lockOrderOk]
  · unfold brelseEvents
    simp only
    split
    · split <;> simp [lockOrderOk]
    · split <;> simp [lockOrderOk]
    · simp [lockOrderOk]
  · unfold bpinEvents
    split <;> simp [lockOrderOk]
  · unfold bunpinEvents
    split <;> simp [lockOrderOk]

/-- Claim C20, the behaviour of the code at the failing input. With `NBUF = 30`, after
thirty `bread` calls for blocks that hash to bucket 1, then `bread(1, 0)` and
`bread(1, 391)` (every call returns, nothing is released), the chain of bucket 0
holds all thirty slots, whose block numbers are 1 modulo 13, not 0. -/
theorem bucket_chain_holds_foreign_blocks :
    (run 64 s0 flood).isSome = true ∧
    Ptr.buf 29 ∈ chain 64 (after flood) (.bucket 0) ∧
    (after flood).blockno (.buf 29) = 1 ∧
    (after flood).blockno (.buf 29) % NBUCKETS = 1 ∧
    ((chain 64 (after flood) (.bucket 0)).filter (isSlot 30)).length = 30 ∧
    ((chain 64 (after flood) (.bucket 0)).filter (isSlot 30)).all
      (fun p => decide ((after flood).blockno p % NBUCKETS = 1)) = true ∧
    (bread 64 (after (flood.take 30)) 1 1 0).val? = some .unused ∧
    (bread 64 (after (flood.take 31)) 1 1 391).val? = some (.bucket 0) := by
  decide!

/-- The defect of claim C1 also breaks the unamended claim C15: after thirty reads of
blocks that hash to bucket 1, `bread(1, 0)` and `bread(1, 2)`, the chain of bucket 0
consists of the sentinel of bucket 2, never stamped and never read; `bread(0, 0)` finds
it in the chain and reads the disk although the search was a hit. -/
theorem bread_hit_on_sentinel_reads_disk :
    (run 64 s0 (flood.take 31 ++ [.bread 1 1 2])).isSome = true ∧
    chain 64 (after (flood.take 31 ++ [.bread 1 1 2])) (.bucket 0) = [.bucket 2] ∧
    bgetScan (after (flood.take 31 ++ [.bread 1 1 2])) 0 0 (.bucket 0) 64
      ((after (flood.take 31 ++ [.bread 1 1 2])).next (.bucket 0)) = .hit (.bucket 2) ∧
    ((bread 64 (after (flood.take 31 ++ [.bread 1 1 2])) 1 0 0).state?.map
      (fun t => t.xfers.head?)) = some (some (false, 0)) := by
  decide!

end Bio
